import Mathlib

/-!
Verification development for the patch-application core of this repository
(`patch_utils.py`, `gitops.py`, `agent.py`).

Text is modelled as `List Char`.  Python string operations used by the code
are translated directly:

* `str.replace("\r\n","\n").replace("\r","\n")` becomes `sanitize`;
* `str.splitlines()` becomes `splitlines` (after `sanitize` the only line
  terminator left in the inputs of interest is `'\n'`, which is the case the
  code relies on; exotic Unicode terminators are out of scope);
* `"\n".join(...)` becomes `joinLines`;
* `str.strip()` becomes `pstrip` over the ASCII whitespace set;
* the regular expressions of `patch_utils.py` are translated into
  deterministic scanners; each translation notes the backtracking analysis
  that justifies determinism.

Python `int` values arising here are line counts, i.e. naturals, so `Nat`
is used; no overflow is involved.
-/

/-- Convert a string literal to the `List Char` text representation. -/
def sl (s : String) : List Char := s.toList

/-- ASCII whitespace as recognised by Python's `str.strip()`
(space, tab, newline, carriage return, vertical tab, form feed). -/
def pySpace (c : Char) : Bool :=
  c = ' ' || c = '\t' || c = '\n' || c = '\r' || c = '\x0b' || c = '\x0c'

/-- `startsWith pat s` is Python's `s.startswith(pat)`. -/
def startsWith : List Char → List Char → Bool
  | [], _ => true
  | _ :: _, [] => false
  | p :: ps, c :: cs => p = c && startsWith ps cs

/-- `pat` occurs as a contiguous substring of `s`
(Python `pat in s` / an unanchored regex search for a literal). -/
def occurs (pat : List Char) : List Char → Bool
  | [] => startsWith pat []
  | c :: rest => startsWith pat (c :: rest) || occurs pat rest

/-- Python `str.lstrip()`. -/
def lstrip (s : List Char) : List Char := s.dropWhile pySpace

/-- Python `str.rstrip()`. -/
def rstrip (s : List Char) : List Char := (s.reverse.dropWhile pySpace).reverse

/-- Python `str.strip()`. -/
def pstrip (s : List Char) : List Char := rstrip (lstrip s)

/-- Python `str.strip('`')`: drop backquote characters from both ends. -/
def stripTicks (s : List Char) : List Char :=
  ((s.dropWhile (fun c => c = '`')).reverse.dropWhile (fun c => c = '`')).reverse

/-- `patch_text.replace("\r\n", "\n").replace("\r", "\n")` from
`normalize_patch` (`patch_utils.py`): the two sequential replacements send
every `"\r\n"` pair and every remaining lone `'\r'` to `'\n'`. -/
def sanitize : List Char → List Char
  | [] => []
  | '\r' :: '\n' :: rest => '\n' :: sanitize rest
  | '\r' :: rest => '\n' :: sanitize rest
  | c :: rest => c :: sanitize rest

/-- Python `str.splitlines()` on `'\n'`-terminated text: a trailing newline
does not produce a trailing empty line
(`"a\nb\n" ↦ ["a","b"]`, `"a\n\n" ↦ ["a",""]`, `"" ↦ []`, `"\n" ↦ [""]`). -/
def splitlines : List Char → List (List Char)
  | [] => []
  | '\n' :: rest => [] :: splitlines rest
  | c :: rest =>
    match splitlines rest with
    | [] => [[c]]
    | l :: ls => (c :: l) :: ls

/-- Python `"\n".join(lines)`. -/
def joinLines : List (List Char) → List Char
  | [] => []
  | [l] => l
  | l :: ls => l ++ '\n' :: joinLines ls

/-- The decimal value of a digit string, i.e. Python `int` on a `\d+` match. -/
def decVal (ds : List Char) : Nat :=
  ds.foldl (fun a c => a * 10 + (c.toNat - 48)) 0

/-- The decimal digit character for `d < 10` (`d ≥ 10` never occurs). -/
def digitChar : Nat → Char
  | 0 => '0' | 1 => '1' | 2 => '2' | 3 => '3' | 4 => '4'
  | 5 => '5' | 6 => '6' | 7 => '7' | 8 => '8' | _ => '9'

/-- Fuel-driven decimal rendering; the fuel is only a structural-recursion
device and `natDigits` always supplies enough of it. -/
def natDigitsGo : Nat → Nat → List Char
  | 0, _ => []
  | fuel + 1, n =>
    if n < 10 then [digitChar n]
    else natDigitsGo fuel (n / 10) ++ [digitChar (n % 10)]

/-- Decimal rendering of a natural, most significant digit first
(Python `f"{n}"` for a nonnegative int). -/
def natDigits (n : Nat) : List Char := natDigitsGo (n + 1) n

/- ## `patch_utils.py`: hunk headers and `normalize_patch` -/

/-- The groups captured by
`HUNK_HEADER = re.compile(r"@@ -(\d+)(?:,(\d+))? \+(\d+)(?:,(\d+))? @@(.*)")`
on a successful `.match`: the two start fields are kept as the captured digit
strings (the code writes `old_start`/`new_start` back verbatim), the optional
count fields likewise, and `suffix` is group 5 (the rest of the line). -/
structure HunkHeader where
  oldStart : List Char
  oldLen : Option (List Char)
  newStart : List Char
  newLen : Option (List Char)
  suffix : List Char
deriving DecidableEq

/-- Greedy `\d+`-style scan: the longest digit prefix and the remainder. -/
def takeDigits : List Char → List Char × List Char
  | [] => ([], [])
  | c :: rest =>
    if c.isDigit then
      let p := takeDigits rest
      (c :: p.1, p.2)
    else ([], c :: rest)

/-- The optional `(?:,(\d+))?` group: consumed only when a comma followed by
at least one digit is present.  (If the group matches, the regex engine never
needs to backtrack out of it here: skipping the group would require the
following literal `' '` to match the very `','` the group consumed.) -/
def parseOptLen : List Char → Option (List Char) × List Char
  | ',' :: rest =>
    let p := takeDigits rest
    if p.1 = [] then (none, ',' :: rest) else (some p.1, p.2)
  | s => (none, s)

/-- `HUNK_HEADER.match(line)` as a deterministic parser.  Greedy `\d+`
followed by a non-digit literal never benefits from backtracking, and the
optional count groups are determined as argued at `parseOptLen`, so the
translation is exact. -/
def parseHunkHeader (l : List Char) : Option HunkHeader :=
  match l with
  | '@' :: '@' :: ' ' :: '-' :: rest =>
    let p1 := takeDigits rest
    if p1.1 = [] then none
    else
      let p2 := parseOptLen p1.2
      match p2.2 with
      | ' ' :: '+' :: r3 =>
        let p3 := takeDigits r3
        if p3.1 = [] then none
        else
          let p4 := parseOptLen p3.2
          match p4.2 with
          | ' ' :: '@' :: '@' :: suffix => some ⟨p1.1, p2.1, p3.1, p4.1, suffix⟩
          | _ => none
      | _ => none
  | _ => none

/-- `int(match.group(2) or "1")`: the declared old count. -/
def declaredOld (h : HunkHeader) : Nat :=
  match h.oldLen with
  | none => 1
  | some d => decVal d

/-- `int(match.group(4) or "1")`: the declared new count. -/
def declaredNew (h : HunkHeader) : Nat :=
  match h.newLen with
  | none => 1
  | some d => decVal d

/-- `f"@@ -{old_start},{old_count} +{new_start},{new_count} @@{suffix}"`. -/
def renderHeader (h : HunkHeader) (oc nc : Nat) : List Char :=
  ('@' :: '@' :: ' ' :: '-' :: []) ++ h.oldStart ++ (',' :: []) ++ natDigits oc
    ++ (' ' :: '+' :: []) ++ h.newStart ++ (',' :: []) ++ natDigits nc
    ++ (' ' :: '@' :: '@' :: []) ++ h.suffix

/-- `"diff --git "` (with the trailing space), the `FILE_SPLIT` literal and
the scan terminator `candidate.startswith("diff --git ")`. -/
def dgMark : List Char :=
  ['d', 'i', 'f', 'f', ' ', '-', '-', 'g', 'i', 't', ' ']

/-- `"diff --git"` (no trailing space), the `startswith` test used on
stripped block contents in `extract_patches`. -/
def dgSolo : List Char := ['d', 'i', 'f', 'f', ' ', '-', '-', 'g', 'i', 't']

/-- `"--- "`. -/
def dashSp : List Char := ['-', '-', '-', ' ']

/-- `"\ No newline at end of file"`. -/
def nnlMark : List Char := sl "\\ No newline at end of file"

/-- The condition on which the body scan of `normalize_patch` breaks out:
the candidate line is itself a hunk header, or starts with `"diff --git "`,
or starts with `"--- "` while the previous line starts with `"diff --git "`. -/
def scanStop (prev c : List Char) : Bool :=
  (parseHunkHeader c).isSome || startsWith dgMark c
    || (startsWith dashSp c && startsWith dgMark prev)

/-- The `while j < len(lines)` recount loop of `normalize_patch`, carrying
the previous line (`lines[j-1]`) explicitly; returns
`(old_count, new_count)`. -/
def scanBody : List Char → List (List Char) → Nat × Nat
  | _, [] => (0, 0)
  | prev, c :: rest =>
    if scanStop prev c then (0, 0)
    else if startsWith nnlMark c then scanBody c rest
    else
      let p := scanBody c rest
      if startsWith ['+'] c then (p.1, p.2 + 1)
      else if startsWith ['-'] c then (p.1 + 1, p.2)
      else (p.1 + 1, p.2 + 1)

/-- The outer `while i < len(lines)` loop of `normalize_patch`: every line is
visited in order; a line matching `HUNK_HEADER` whose recomputed counts
differ from the declared ones is rewritten in place and the `changed` flag is
set.  The in-place rewrite of `lines[i]` only ever affects positions the loop
has already passed, so each position's recount scans the original tail, which
is what the recursion passes to `scanBody`. -/
def processLines : List (List Char) → List (List Char) × Bool
  | [] => ([], false)
  | c :: rest =>
    let pr := processLines rest
    match parseHunkHeader c with
    | none => (c :: pr.1, pr.2)
    | some h =>
      let counts := scanBody c rest
      if counts.1 = declaredOld h ∧ counts.2 = declaredNew h then (c :: pr.1, pr.2)
      else (renderHeader h counts.1 counts.2 :: pr.1, true)

/-- `if not normalized.endswith("\n"): normalized += "\n"`. -/
def ensureNL (s : List Char) : List Char :=
  if s.getLast? = some '\n' then s else s ++ ['\n']

/-- `normalize_patch` from `patch_utils.py`. -/
def normalize_patch (p : List Char) : List Char :=
  let sanitized := sanitize p
  let lines := splitlines sanitized
  let pr := processLines lines
  let normalized := if pr.2 then joinLines pr.1 else sanitized
  ensureNL normalized

example : normalize_patch (sl "@@ -1,3 +1,3 @@\n a\n b\n c\n d\n+e\n")
    = sl "@@ -1,4 +1,5 @@\n a\n b\n c\n d\n+e\n" := by decide

example : normalize_patch (sl "@@ -1 +1 @@\n x\n\n")
    = sl "@@ -1,2 +1,2 @@\n x\n" := by decide

/- ## `patch_utils.py`: `extract_patches`, `parse_diff_files` -/

/-- A `startsWith` match needs at least the pattern's length. -/
theorem startsWith_length {p s : List Char} (h : startsWith p s = true) :
    p.length ≤ s.length := by
  induction p generalizing s with
  | nil => simp
  | cons a p ih =>
    cases s with
    | nil => simp [startsWith] at h
    | cons b t =>
      simp only [startsWith, Bool.and_eq_true] at h
      simpa using ih h.2

/-- `startsWith` is the prefix relation. -/
theorem startsWith_iff_append {p s : List Char} :
    startsWith p s = true ↔ ∃ t, s = p ++ t := by
  induction p generalizing s with
  | nil => simp [startsWith]
  | cons a p ih =>
    cases s with
    | nil =>
      simp only [startsWith, List.cons_append]
      constructor
      · intro h; cases h
      · rintro ⟨t, ht⟩; cases ht
    | cons b t =>
      simp only [startsWith, Bool.and_eq_true, decide_eq_true_eq, ih,
        List.cons_append, List.cons.injEq]
      constructor
      · rintro ⟨rfl, u, rfl⟩; exact ⟨u, rfl, rfl⟩
      · rintro ⟨u, rfl, rfl⟩; exact ⟨rfl, u, rfl⟩

/-- `"```"`, the code-fence delimiter in `PATCH_BLOCK` and `CODE_FENCE`. -/
def tick3 : List Char := ['`', '`', '`']

/-- The opener of `PATCH_BLOCK = re.compile(r"```(?:patch|diff)?\n(.*?)```", re.DOTALL)`
at one position: three backquotes, then an optional `patch`/`diff` tag, then
a newline; returns the text after the opener.  The regex alternation order
(`patch`, `diff`, empty) makes this exactly the three literal openers below,
tried in order: if a tag matches but no newline follows, the empty
alternative also fails (the character after the backquotes is the tag's
first letter, not a newline). -/
def tryOpen (s : List Char) : Option (List Char) :=
  if startsWith (sl "```patch\n") s then some (s.drop 9)
  else if startsWith (sl "```diff\n") s then some (s.drop 8)
  else if startsWith (sl "```\n") s then some (s.drop 4)
  else none

theorem tryOpen_length {s r : List Char} (h : tryOpen s = some r) :
    r.length + 4 ≤ s.length := by
  unfold tryOpen at h
  split at h
  case isTrue h1 =>
    have := startsWith_length h1
    simp only [Option.some.injEq] at h
    subst h
    simp only [List.length_drop]
    simp [sl] at this
    omega
  case isFalse =>
    split at h
    case isTrue h2 =>
      have := startsWith_length h2
      simp only [Option.some.injEq] at h
      subst h
      simp only [List.length_drop]
      simp [sl] at this
      omega
    case isFalse =>
      split at h
      case isTrue h3 =>
        have := startsWith_length h3
        simp only [Option.some.injEq] at h
        subst h
        simp only [List.length_drop]
        simp [sl] at this
        omega
      case isFalse => cases h

/-- Split at the first occurrence of `"```"`: the lazy `(.*?)` of
`PATCH_BLOCK` runs to the nearest closing fence.  Returns the content before
the fence and the text after it; `none` when no fence occurs (the regex then
fails at this start position and the scan moves on). -/
def findCloser : List Char → Option (List Char × List Char)
  | [] => none
  | c :: rest =>
    if startsWith tick3 (c :: rest) then some ([], (c :: rest).drop 3)
    else
      match findCloser rest with
      | some pr => some (c :: pr.1, pr.2)
      | none => none

theorem findCloser_length {s : List Char} {pr : List Char × List Char}
    (h : findCloser s = some pr) : pr.1.length + pr.2.length + 3 = s.length := by
  induction s generalizing pr with
  | nil => simp [findCloser] at h
  | cons c rest ih =>
    simp only [findCloser] at h
    split at h
    case isTrue hs =>
      have := startsWith_length hs
      simp only [Option.some.injEq] at h
      subst h
      simp only [List.length_nil, List.length_drop, List.length_cons]
      simp [tick3] at this
      omega
    case isFalse hs =>
      split at h
      case h_1 q hq =>
        simp only [Option.some.injEq] at h
        subst h
        have := ih hq
        simp only [List.length_cons]
        omega
      case h_2 => cases h

/-- Fuel-driven body of `patchBlockFind`; the fuel is a structural-recursion
device, always sufficient when `patchBlockFind` supplies it
(`patchBlockGo_fuel`). -/
def patchBlockGo : Nat → List Char → List (List Char)
  | 0, _ => []
  | _, [] => []
  | fuel + 1, c :: rest =>
    match tryOpen (c :: rest) with
    | some after =>
      match findCloser after with
      | some pr => pr.1 :: patchBlockGo fuel pr.2
      | none => patchBlockGo fuel rest
    | none => patchBlockGo fuel rest

/-- `PATCH_BLOCK.findall(response)`: scan left to right; at each position try
to match an opener, then run the lazy content to the nearest closing fence;
on a match, emit the captured content and continue after the closing fence
(non-overlapping matches); otherwise advance one character. -/
def patchBlockFind (s : List Char) : List (List Char) := patchBlockGo s.length s

/-- Any sufficient fuel computes the same `patchBlockGo` result. -/
theorem patchBlockGo_fuel (fuel fuel' : Nat) (s : List Char)
    (h : s.length ≤ fuel) (h' : s.length ≤ fuel') :
    patchBlockGo fuel s = patchBlockGo fuel' s := by
  induction fuel generalizing fuel' s with
  | zero =>
    have : s = [] := List.length_eq_zero.mp (Nat.le_zero.mp h)
    subst this
    cases fuel' <;> rfl
  | succ fuel ih =>
    cases s with
    | nil => cases fuel' <;> rfl
    | cons c rest =>
      cases fuel' with
      | zero => simp at h'
      | succ fuel' =>
        simp only [List.length_cons] at h h'
        cases h1 : tryOpen (c :: rest) with
        | none =>
          simp only [patchBlockGo, h1]
          exact ih fuel' rest (by omega) (by omega)
        | some after =>
          cases h2 : findCloser after with
          | none =>
            simp only [patchBlockGo, h1, h2]
            exact ih fuel' rest (by omega) (by omega)
          | some pr =>
            have ha := tryOpen_length h1
            have hb := findCloser_length h2
            simp only [List.length_cons] at ha
            simp only [patchBlockGo, h1, h2, List.cons.injEq, true_and]
            exact ih fuel' pr.2 (by omega) (by omega)

/-- The lazy tail of one `FILE_SPLIT` match
(`FILE_SPLIT = re.compile(r"(diff --git .*?)(?=diff --git |$)", re.DOTALL)`):
after the literal `"diff --git "`, extend minimally until the lookahead
holds, i.e. until the remaining text starts with `"diff --git "`, is the
final lone newline (the `$` position before a terminal newline), or is empty
(`$` at end; the lookahead always holds there, so a match always
completes).  Returns the consumed body and the remaining text. -/
def fileChunk : List Char → List Char × List Char
  | [] => ([], [])
  | c :: rest =>
    if startsWith dgMark (c :: rest) || (c :: rest) = ['\n'] then ([], c :: rest)
    else
      let p := fileChunk rest
      (c :: p.1, p.2)

theorem fileChunk_append (s : List Char) : (fileChunk s).1 ++ (fileChunk s).2 = s := by
  induction s with
  | nil => rfl
  | cons c rest ih =>
    simp only [fileChunk]
    split
    · rfl
    · simpa using ih

theorem fileChunk_length (s : List Char) : (fileChunk s).2.length ≤ s.length := by
  have h := congrArg List.length (fileChunk_append s)
  simp only [List.length_append] at h
  omega

/-- Fuel-driven body of `fileSplitFind` (`fileSplitGo_fuel` shows the fuel
supplied by `fileSplitFind` is always sufficient). -/
def fileSplitGo : Nat → List Char → List (List Char)
  | 0, _ => []
  | _, [] => []
  | fuel + 1, c :: rest =>
    if startsWith dgMark (c :: rest) then
      let p := fileChunk ((c :: rest).drop 11)
      (dgMark ++ p.1) :: fileSplitGo fuel p.2
    else fileSplitGo fuel rest

/-- `FILE_SPLIT.findall(text)`: each match starts at an occurrence of the
literal `"diff --git "` and captures up to the lookahead position, where the
scan resumes. -/
def fileSplitFind (s : List Char) : List (List Char) := fileSplitGo s.length s

/-- Any sufficient fuel computes the same `fileSplitGo` result. -/
theorem fileSplitGo_fuel (fuel fuel' : Nat) (s : List Char)
    (h : s.length ≤ fuel) (h' : s.length ≤ fuel') :
    fileSplitGo fuel s = fileSplitGo fuel' s := by
  induction fuel generalizing fuel' s with
  | zero =>
    have : s = [] := List.length_eq_zero.mp (Nat.le_zero.mp h)
    subst this
    cases fuel' <;> rfl
  | succ fuel ih =>
    cases s with
    | nil => cases fuel' <;> rfl
    | cons c rest =>
      cases fuel' with
      | zero => simp at h'
      | succ fuel' =>
        simp only [List.length_cons] at h h'
        by_cases hd : startsWith dgMark (c :: rest) = true
        · have ha := startsWith_length hd
          have hb := fileChunk_length ((c :: rest).drop 11)
          simp only [List.length_drop, List.length_cons] at hb
          simp only [dgMark, List.length_cons, List.length_nil] at ha
          simp only [fileSplitGo, if_pos hd, List.cons.injEq, true_and]
          exact ih fuel' (fileChunk ((c :: rest).drop 11)).2 (by omega) (by omega)
        · simp only [fileSplitGo, if_neg hd]
          exact ih fuel' rest (by omega) (by omega)

/-- `extract_patches` from `patch_utils.py`.  The `for match in matches`
accumulation is the fold; the final branches mirror the source's
fall-through structure (`if matches: ...; if patches: return patches`,
then the raw-text branches). -/
def extract_patches (response : List Char) : List (List Char) :=
  let ms := patchBlockFind response
  let patches :=
    ms.foldl (fun acc m =>
      let m1 := pstrip m
      if startsWith dgSolo m1 then acc ++ (fileSplitFind m1).map pstrip
      else if m1 ≠ [] then acc ++ [m1]
      else acc) []
  if ms ≠ [] ∧ patches ≠ [] then patches
  else
    let rs := pstrip response
    if startsWith (sl "---") rs || startsWith dgSolo rs then
      let chunks := fileSplitFind rs
      if chunks ≠ [] then chunks.map pstrip else [rs]
    else if startsWith tick3 rs then [stripTicks response]
    else []

/-- The split of one `DIFF_FILE_PATTERN` line body after `"diff --git a/"`
at the **last** occurrence of `" b/"` followed by at least one character:
`(.+) b/(.+)` gives the greedy first group the longest prefix admitting a
nonempty second group, i.e. the rightmost such split. -/
def splitLastB : List Char → Option (List Char × List Char)
  | [] => none
  | c :: rest =>
    match splitLastB rest with
    | some pr => some (c :: pr.1, pr.2)
    | none =>
      if startsWith (sl " b/") (c :: rest) ∧ (c :: rest).drop 3 ≠ [] then
        some ([], (c :: rest).drop 3)
      else none

/-- One line of `DIFF_FILE_PATTERN = re.compile(r"^diff --git a/(.+) b/(.+)$",
re.MULTILINE)`: with `^`/`$` anchored to the line, a match is the literal
prefix `"diff --git a/"`, then the greedy split of the rest.  The first
group must be nonempty; if the rightmost admissible split leaves it empty,
that split was at position 0 and no other occurrence exists, so the regex
fails — matching the `none` here. -/
def parseDiffLine (l : List Char) : Option (List Char × List Char) :=
  if startsWith (sl "diff --git a/") l then
    match splitLastB (l.drop 13) with
    | some pr => if pr.1 = [] then none else some pr
    | none => none
  else none

/-- `parse_diff_files` from `patch_utils.py`: all `MULTILINE` matches of
`DIFF_FILE_PATTERN`, one per line of the text, in order. -/
def parse_diff_files (patch : List Char) : List (List Char × List Char) :=
  (splitlines patch).filterMap parseDiffLine

example : parse_diff_files (sl "diff --git a/x.py b/x.py\n--- a/x.py\n+++ b/x.py\n")
    = [(sl "x.py", sl "x.py")] := by decide

example : extract_patches
      (sl "```diff\ndiff --git a/x b/x\n-a\n+b\ndiff --git a/y b/y\n-c\n+d\n```")
    = [sl "diff --git a/x b/x\n-a\n+b", sl "diff --git a/y b/y\n-c\n+d"] := by decide

example : extract_patches (sl "no patch here") = [] := by decide

/- ## `gitops.py`: snapshots, change detection, `apply_patch` -/

/-- The sentinel `"/dev/null"`. -/
def devNull : List Char := sl "/dev/null"

/-- `_patch_target_paths` from `gitops.py`: for each parsed `(old, new)`
pair, append `old` unless empty or the sentinel, then `new` unless empty,
the sentinel, or equal to `old`.  (`parse_diff_files` is total, so the
`try/except` around it never fires.) -/
def patch_target_paths (patch : List Char) : List (List Char) :=
  (parse_diff_files patch).foldl
    (fun acc pr =>
      let acc1 := if pr.1 ≠ [] ∧ pr.1 ≠ devNull then acc ++ [pr.1] else acc
      if pr.2 ≠ [] ∧ pr.2 ≠ devNull ∧ pr.2 ≠ pr.1 then acc1 ++ [pr.2] else acc1)
    []

/-- The state of one path in the working tree, as observable by
`_snapshot_files`/`_files_changed`: missing, or present with byte content
that a read either returns (`some bytes`) or fails to return with an
`OSError` (`none`). -/
inductive FileState where
  | absent : FileState
  | present : Option (List Nat) → FileState
deriving DecidableEq

/-- A working tree: what `Path.exists` / `Path.read_bytes` observe per
relative path. -/
def WorkTree : Type := List Char → FileState

/-- The `(exists, content)` pair `_snapshot_files` stores for one path:
`(True, bytes)` on a successful read, `(True, None)` when the read raises
`OSError`, `(False, None)` when the path does not exist. -/
def snapEntry (st : FileState) : Bool × Option (List Nat) :=
  match st with
  | .absent => (false, none)
  | .present c => (true, c)

/-- `_snapshot_files` from `gitops.py`.  The Python dict is modelled as an
association list; duplicate paths receive identical entries (the entry is a
function of the tree state), so first-match lookup agrees with the dict. -/
def snapshot_files (fs : WorkTree) (paths : List (List Char)) :
    List (List Char × (Bool × Option (List Nat))) :=
  paths.map (fun rel => (rel, snapEntry (fs rel)))

/-- `before.get(rel, (False, None))`. -/
def snapLookup (before : List (List Char × (Bool × Option (List Nat))))
    (rel : List Char) : Bool × Option (List Nat) :=
  match before.find? (fun e => e.1 = rel) with
  | some e => e.2
  | none => (false, none)

/-- `_files_changed` from `gitops.py`: unconditionally `True` on an empty
path list; otherwise `True` iff some path's existence changed, or it exists
and its read result (bytes, or `None` after an `OSError`) differs from the
snapshot. -/
def files_changed (fs : WorkTree) (paths : List (List Char))
    (before : List (List Char × (Bool × Option (List Nat)))) : Bool :=
  if paths = [] then true
  else
    paths.any (fun rel =>
      let ex := match fs rel with | .absent => false | .present _ => true
      let data : Option (List Nat) :=
        match fs rel with | .absent => none | .present c => c
      let prev := snapLookup before rel
      ex != prev.1 || (ex && data ≠ prev.2))

/-- The outcomes of `apply_patch` in `gitops.py`: success, or a
`PatchApplyError` with (the stable part of) its message. -/
inductive ApplyOutcome where
  | ok : ApplyOutcome
  | applyFailed : ApplyOutcome
  | noChanges : ApplyOutcome
deriving DecidableEq

/-- `apply_patch` from `gitops.py`, with the two external tool invocations
abstracted as their success bits (`gitOk` for `git apply`, `patchOk` for the
`patch --forward -p1` fallback) and the tree states before (`fs0`) and after
(`fs1`) the tools ran.  Control flow: if both tools fail, the
`PatchApplyError` listing both diagnostics is raised (`applyFailed`); the
subsequent `if not applied` re-raise is unreachable.  On success the
no-change check runs against the pre-apply snapshot and raises
`"Patch applied but produced no file changes"` (`noChanges`) when nothing
differs. -/
def apply_patch (p : List Char) (fs0 fs1 : WorkTree) (gitOk patchOk : Bool) :
    ApplyOutcome :=
  let np := normalize_patch p
  let targets := patch_target_paths np
  let before := snapshot_files fs0 targets
  if gitOk || patchOk then
    if files_changed fs1 targets before then .ok else .noChanges
  else .applyFailed

/- ## `agent.py`: `apply_with_refinement` -/

/-- The progress events emitted by `apply_with_refinement`, with the
attempt/message payloads the code passes. -/
inductive AgentEvent where
  | applyStart (attempt : Nat)
  | applySuccess (attempt : Nat)
  | applyError (attempt : Nat) (msg : String)
  | rewriteApplied (attempt : Nat)
  | rewriteFailed (msg : String)
  | refined (attempt : Nat)
deriving DecidableEq

/-- The calls `apply_with_refinement` makes to its collaborators, with the
arguments that vary between calls (`repo_path`, `issue`, `plan`,
`repo_context` are fixed for one invocation). -/
inductive AgentCall where
  | applyPatch (patch : List Char)
  | fileRewrite (patch : List Char)
  | refinePatch (failed : List Char) (errorMsg : String)
deriving DecidableEq

/-- The environment of one `apply_with_refinement` run: each collaborator's
observable behaviour, as a function of how many times it has been called so
far and of the varying arguments.

* `applyRes i p`  — `i`-th call of `gitops.apply_patch` on patch `p`:
  `none` for success, `some msg` for a raised `PatchApplyError` with
  message `msg`;
* `rewriteRes i p` — `i`-th call of `attempt_file_rewrite` for failing
  patch `p`: `.ok fallback` returns a fallback diff, `.error msg` raises a
  `RuntimeError` (no target determinable / missing file / empty rewrite);
* `refineRes i p e` — `i`-th call of `llm.refine_patch` with
  `failed_patch = p`, `error_message = e`, returning the response text. -/
structure AgentEnv where
  applyRes : Nat → List Char → Option String
  rewriteRes : Nat → List Char → Except String (List Char)
  refineRes : Nat → List Char → String → List Char

/-- The mutable state of one `apply_with_refinement` run (`current_patch`,
`attempts`, `rewrite_attempted`), together with the observable history: the
per-collaborator call counts, the full argument-carrying call list, and the
progress events delivered to the callback. -/
structure AgentState where
  currentPatch : List Char
  attempts : Nat
  rewriteAttempted : Bool
  applyCount : Nat
  rewriteCount : Nat
  refineCount : Nat
  calls : List AgentCall
  events : List AgentEvent
deriving DecidableEq

/-- `if progress: progress(event, payload)` — with `progress=None`
(`hp = false`) nothing happens; a non-raising callback (`hp = true`) only
receives the event (its return value is ignored by the code). -/
def emit (hp : Bool) (e : AgentEvent) (s : AgentState) : AgentState :=
  if hp then { s with events := s.events ++ [e] } else s

/-- The shared refinement tail
(`refined = llm.refine_patch(...)`;
`new_patches = extract_patches(refined) or [refined.strip()]`;
`current_patch = new_patches[0]`). -/
def refineStep (env : AgentEnv) (s : AgentState) (msg : String) : AgentState :=
  let refined := env.refineRes s.refineCount s.currentPatch msg
  let ps := extract_patches refined
  { s with
    currentPatch := ps.headD (pstrip refined)
    refineCount := s.refineCount + 1
    calls := s.calls ++ [.refinePatch s.currentPatch msg] }

/-- How one `apply_with_refinement` run ends. -/
inductive AgentOutcome where
  | finished : AgentOutcome
  | exhaustedLoop : AgentOutcome
  | outOfFuel : AgentOutcome
deriving DecidableEq

/-- One iteration of the `while attempts < max_attempts` loop of
`apply_with_refinement` (`agent.py`), including the loop test.  `.inl` is
`continue`; `.inr` leaves the function.

The inner `try` block is the `Except` value: `.error` is a raised
`RuntimeError` reaching the inner `except RuntimeError` handler.  All three
raises inside that `try` are `RuntimeError`s — the explicit
`raise RuntimeError("Rewrite already attempted and failed")`, the
`RuntimeError`s of `attempt_file_rewrite`, and the `PatchApplyError` of the
fallback `apply_patch` (via `PatchApplyError < GitError < RuntimeError`) —
so every one of them is caught by that handler and none propagates.  The
handler marks the rewrite attempted, refines once more with the caught
message, rewinds `attempts` to `max_attempts - 1` and continues. -/
def stepIter (env : AgentEnv) (maxAttempts : Nat) (hp : Bool) (s : AgentState) :
    AgentState ⊕ (AgentOutcome × AgentState) :=
  if s.attempts < maxAttempts then
    let s := emit hp (.applyStart (s.attempts + 1)) s
    let res := env.applyRes s.applyCount s.currentPatch
    let s := { s with
      applyCount := s.applyCount + 1
      calls := s.calls ++ [.applyPatch s.currentPatch] }
    match res with
    | none => .inr (.finished, emit hp (.applySuccess (s.attempts + 1)) s)
    | some msg =>
      let s := { s with attempts := s.attempts + 1 }
      let s := emit hp (.applyError s.attempts msg) s
      if maxAttempts ≤ s.attempts then
        let inner : Except (String × AgentState) AgentState :=
          if s.rewriteAttempted then .error ("Rewrite already attempted and failed", s)
          else
            let rres := env.rewriteRes s.rewriteCount s.currentPatch
            let s1 := { s with
              rewriteCount := s.rewriteCount + 1
              calls := s.calls ++ [.fileRewrite s.currentPatch] }
            match rres with
            | .error e => .error (e, s1)
            | .ok fallback =>
              let ares := env.applyRes s1.applyCount fallback
              let s2 := { s1 with
                applyCount := s1.applyCount + 1
                calls := s1.calls ++ [.applyPatch fallback] }
              match ares with
              | none => .ok s2
              | some m2 => .error (m2, s2)
        match inner with
        | .ok s2 => .inr (.finished, emit hp (.rewriteApplied s.attempts) s2)
        | .error pr =>
          let s3 := emit hp (.rewriteFailed pr.1) pr.2
          let s4 := refineStep env { s3 with rewriteAttempted := true } pr.1
          .inl { s4 with attempts := maxAttempts - 1 }
      else
        let s1 := refineStep env s msg
        .inl (emit hp (.refined s1.attempts) s1)
  else .inr (.exhaustedLoop, s)

/-- The loop of `apply_with_refinement`, driven by fuel (nothing in the code
bounds the number of iterations, so the model makes the iteration budget
explicit; `.outOfFuel` means the loop was still running). -/
def runLoop (env : AgentEnv) (maxAttempts : Nat) (hp : Bool) :
    Nat → AgentState → AgentOutcome × AgentState
  | 0, s => (.outOfFuel, s)
  | fuel + 1, s =>
    match stepIter env maxAttempts hp s with
    | .inl s' => runLoop env maxAttempts hp fuel s'
    | .inr r => r

/-- `current_patch = patch_text; attempts = 0; rewrite_attempted = False`. -/
def initState (patch : List Char) : AgentState :=
  ⟨patch, 0, false, 0, 0, 0, [], []⟩

/-- `apply_with_refinement(llm, issue, plan, repo_context, repo_path,
patch_text, max_attempts, progress)` under environment `env`, with
`hp = (progress is not None)` and an explicit iteration budget. -/
def apply_with_refinement (env : AgentEnv) (maxAttempts : Nat) (hp : Bool)
    (fuel : Nat) (patch : List Char) : AgentOutcome × AgentState :=
  runLoop env maxAttempts hp fuel (initState patch)

/- ## Helper lemmas for `gitops.py` claims -/

/-- Looking up a snapshotted path returns the entry derived from the
pre-apply tree. -/
theorem snapLookup_snapshot (fs : WorkTree) (paths : List (List Char))
    (rel : List Char) (h : rel ∈ paths) :
    snapLookup (snapshot_files fs paths) rel = snapEntry (fs rel) := by
  induction paths with
  | nil => cases h
  | cons r rest ih =>
    simp only [snapshot_files, List.map_cons, snapLookup]
    by_cases hr : r = rel
    · subst hr
      rw [List.find?_cons_of_pos _ (by simp)]
    · have hmem : rel ∈ rest := by
        cases List.mem_cons.mp h with
        | inl h' => exact absurd h'.symm hr
        | inr h' => exact h'
      rw [List.find?_cons_of_neg _ (by simp [hr])]
      have := ih hmem
      simpa [snapshot_files, snapLookup] using this

/-- If every target's observable state is identical before and after, the
change check reports no change (on a nonempty path list). -/
theorem files_changed_eq_false (fs0 fs1 : WorkTree) (paths : List (List Char))
    (hne : paths ≠ []) (h : ∀ rel ∈ paths, fs1 rel = fs0 rel) :
    files_changed fs1 paths (snapshot_files fs0 paths) = false := by
  unfold files_changed
  rw [if_neg hne, List.any_eq_false]
  intro rel hrel
  rw [snapLookup_snapshot fs0 paths rel hrel, h rel hrel]
  cases fs0 rel <;> simp [snapEntry]

/- ## Claims C4, C5, C6 -/

/-- Claim C4: for every patch with a non-empty list of parseable target
paths, if an apply strategy reports success (`git apply` or the `patch`
fallback) but no target path's existence or byte content differs from the
pre-apply snapshot, `apply_patch` raises the
"Patch applied but produced no file changes" `PatchApplyError` instead of
returning success. -/
theorem C4_noop_apply_error (p : List Char) (fs0 fs1 : WorkTree)
    (gitOk patchOk : Bool)
    (hne : patch_target_paths (normalize_patch p) ≠ [])
    (hsame : ∀ rel ∈ patch_target_paths (normalize_patch p), fs1 rel = fs0 rel)
    (hok : (gitOk || patchOk) = true) :
    apply_patch p fs0 fs1 gitOk patchOk = .noChanges := by
  unfold apply_patch
  rw [if_pos hok, if_neg]
  rw [files_changed_eq_false fs0 fs1 _ hne hsame]
  simp

/-- A one-file patch whose hunk exactly matches present content. -/
def noopPatch : List Char := sl "diff --git a/f b/f\n@@ -1 +1 @@\n-x\n+y\n"

/-- A tree in which every path reads the same bytes before and after. -/
def stableTree : WorkTree := fun _ => .present (some [120, 10])

theorem C4_noop_apply_error_witness :
    patch_target_paths (normalize_patch noopPatch) ≠ [] ∧
      apply_patch noopPatch stableTree stableTree true false = .noChanges :=
  ⟨by decide,
    C4_noop_apply_error noopPatch stableTree stableTree true false (by decide)
      (fun _ _ => rfl) (by decide)⟩

/-- Claim C5: with an empty target-path list, `_files_changed` returns
`True` unconditionally, regardless of on-disk state or snapshot contents. -/
theorem C5_empty_paths_changed (fs : WorkTree)
    (before : List (List Char × (Bool × Option (List Nat)))) :
    files_changed fs [] before = true := rfl

/-- A tree on which every read raises `OSError` (file exists, bytes
unobtainable). -/
def unreadableTree : WorkTree := fun _ => .present none

/-- Claim C6 counterexample: a path whose read fails in the pre-apply
snapshot **and** in the post-apply comparison is recorded as `(True, None)`
both times, so the two sides compare equal and `_files_changed` returns
`False` — not `True` as the claim's "either … or …" (read inclusively)
states. -/
theorem C6_counterexample :
    snapshot_files unreadableTree [sl "f"] = [(sl "f", (true, none))] ∧
      files_changed unreadableTree [sl "f"]
        (snapshot_files unreadableTree [sl "f"]) = false := by
  constructor
  · rfl
  · rfl

/-- Claim C6 as amended: if the read of some target path (existing on both
sides) fails on exactly one side — in the snapshot or in the post-apply
comparison — the check conservatively reports changed; when it fails on
both sides the `None` entries compare equal and the path does not count as
changed (see the counterexample). -/
theorem C6_read_error_one_side (fs0 fs1 : WorkTree) (paths : List (List Char))
    (rel : List Char) (b : List Nat) (hmem : rel ∈ paths)
    (hcase : (fs0 rel = .present (some b) ∧ fs1 rel = .present none) ∨
             (fs0 rel = .present none ∧ fs1 rel = .present (some b))) :
    files_changed fs1 paths (snapshot_files fs0 paths) = true := by
  unfold files_changed
  rw [if_neg (List.ne_nil_of_mem hmem), List.any_eq_true]
  refine ⟨rel, hmem, ?_⟩
  rw [snapLookup_snapshot fs0 paths rel hmem]
  cases hcase with
  | inl h => rw [h.1, h.2]; simp [snapEntry]
  | inr h => rw [h.1, h.2]; simp [snapEntry]

/-- A tree where the path is readable. -/
def readableTree : WorkTree := fun _ => .present (some [1])

theorem C6_read_error_one_side_witness :
    files_changed unreadableTree [sl "g"]
      (snapshot_files readableTree [sl "g"]) = true :=
  C6_read_error_one_side readableTree unreadableTree [sl "g"] (sl "g") [1]
    (by simp) (Or.inl ⟨rfl, rfl⟩)

/- ## Claim C7 -/

/-- The property C7 claims of every result: a final `'\n'` not preceded by
another `'\n'`. -/
def endsInOneNewline (s : List Char) : Bool :=
  s.getLast? = some '\n' && !(s.dropLast.getLast? = some '\n')

/-- Claim C7 counterexample: `normalize_patch` only ever appends a missing
final newline; on input `"x\n\n"` (no hunk headers, nothing rewritten) the
result is `"x\n\n"` itself, which ends in two newlines, not exactly one. -/
theorem C7_counterexample :
    normalize_patch (sl "x\n\n") = sl "x\n\n" ∧
      endsInOneNewline (normalize_patch (sl "x\n\n")) = false := by
  constructor
  · rfl
  · rfl

/-- The appended-newline step always leaves a final newline. -/
theorem ensureNL_getLast (s : List Char) : (ensureNL s).getLast? = some '\n' := by
  unfold ensureNL
  split
  · assumption
  · exact List.getLast?_concat _

/-- Claim C7 as amended: every `normalize_patch` result ends with **at
least** one trailing newline (one is appended exactly when missing);
additional trailing newlines already present in an unrewritten input are
kept (see the counterexample). -/
theorem C7_trailing_newline (p : List Char) :
    (normalize_patch p).getLast? = some '\n' :=
  ensureNL_getLast _

/- ## Helper lemmas for the `apply_with_refinement` claims -/

@[simp] theorem emit_currentPatch (hp : Bool) (e : AgentEvent) (s : AgentState) :
    (emit hp e s).currentPatch = s.currentPatch := by cases hp <;> rfl

@[simp] theorem emit_attempts (hp : Bool) (e : AgentEvent) (s : AgentState) :
    (emit hp e s).attempts = s.attempts := by cases hp <;> rfl

@[simp] theorem emit_rewriteAttempted (hp : Bool) (e : AgentEvent) (s : AgentState) :
    (emit hp e s).rewriteAttempted = s.rewriteAttempted := by cases hp <;> rfl

@[simp] theorem emit_applyCount (hp : Bool) (e : AgentEvent) (s : AgentState) :
    (emit hp e s).applyCount = s.applyCount := by cases hp <;> rfl

@[simp] theorem emit_rewriteCount (hp : Bool) (e : AgentEvent) (s : AgentState) :
    (emit hp e s).rewriteCount = s.rewriteCount := by cases hp <;> rfl

@[simp] theorem emit_refineCount (hp : Bool) (e : AgentEvent) (s : AgentState) :
    (emit hp e s).refineCount = s.refineCount := by cases hp <;> rfl

@[simp] theorem emit_calls (hp : Bool) (e : AgentEvent) (s : AgentState) :
    (emit hp e s).calls = s.calls := by cases hp <;> rfl

@[simp] theorem refineStep_attempts (env : AgentEnv) (s : AgentState) (msg : String) :
    (refineStep env s msg).attempts = s.attempts := rfl

@[simp] theorem refineStep_applyCount (env : AgentEnv) (s : AgentState) (msg : String) :
    (refineStep env s msg).applyCount = s.applyCount := rfl

@[simp] theorem refineStep_rewriteAttempted (env : AgentEnv) (s : AgentState) (msg : String) :
    (refineStep env s msg).rewriteAttempted = s.rewriteAttempted := rfl

/-- Under an always-failing `apply_patch`, every loop iteration continues
(nothing returns, nothing propagates), the attempt counter stays below
`max_attempts = 3`, and at least one more apply call has been made. -/
theorem stepIter_allFail (env : AgentEnv) (hp : Bool)
    (hfail : ∀ i p, env.applyRes i p ≠ none)
    (s : AgentState) (hs : s.attempts < 3) :
    ∃ s', stepIter env 3 hp s = .inl s' ∧ s'.attempts < 3 ∧
      s.applyCount + 1 ≤ s'.applyCount := by
  obtain ⟨msg, hmsg⟩ := Option.ne_none_iff_exists'.mp (hfail s.applyCount s.currentPatch)
  by_cases h3 : (3 : Nat) ≤ s.attempts + 1
  · by_cases hrw : s.rewriteAttempted = true
    · simp only [stepIter, if_pos hs, emit_applyCount, emit_currentPatch, hmsg,
        emit_attempts, emit_rewriteAttempted, hrw, if_pos h3, if_true]
      refine ⟨_, rfl, ?_, ?_⟩ <;> simp
    · rw [Bool.not_eq_true] at hrw
      cases hrr : env.rewriteRes s.rewriteCount s.currentPatch with
      | error e =>
        simp only [stepIter, if_pos hs, emit_applyCount, emit_currentPatch, hmsg,
          emit_attempts, emit_rewriteAttempted, emit_rewriteCount, hrw, if_pos h3,
          Bool.false_eq_true, if_false, hrr]
        refine ⟨_, rfl, ?_, ?_⟩ <;> simp
      | ok fb =>
        obtain ⟨m2, hm2⟩ :=
          Option.ne_none_iff_exists'.mp (hfail (s.applyCount + 1) fb)
        simp only [stepIter, if_pos hs, emit_applyCount, emit_currentPatch, hmsg,
          emit_attempts, emit_rewriteAttempted, emit_rewriteCount, hrw, if_pos h3,
          Bool.false_eq_true, if_false, hrr]
        simp only [emit_applyCount, hm2]
        refine ⟨_, rfl, ?_, ?_⟩ <;> simp
  · simp only [stepIter, if_pos hs, emit_applyCount, emit_currentPatch, hmsg,
      emit_attempts, if_neg h3]
    refine ⟨_, rfl, ?_, ?_⟩
    · simpa using by omega
    · simp

/-- Iterating under an always-failing `apply_patch`: the loop never leaves
(no success, no fall-through, no propagated error) and makes at least one
apply call per iteration. -/
theorem runLoop_allFail (env : AgentEnv) (hp : Bool)
    (hfail : ∀ i p, env.applyRes i p ≠ none) :
    ∀ fuel (s : AgentState), s.attempts < 3 →
      (runLoop env 3 hp fuel s).1 = .outOfFuel ∧
        s.applyCount + fuel ≤ (runLoop env 3 hp fuel s).2.applyCount := by
  intro fuel
  induction fuel with
  | zero => intro s _; exact ⟨rfl, by simp [runLoop]⟩
  | succ fuel ih =>
    intro s hs
    obtain ⟨s', hstep, hlt, hcount⟩ := stepIter_allFail env hp hfail s hs
    have hrec := ih s' hlt
    simp only [runLoop, hstep]
    exact ⟨hrec.1, by omega⟩

/-- Claim C1: with `max_attempts = 3`, when every application of the
current patch raises `PatchApplyError` (whatever the whole-file rewrite
fallback does), the loop **never** terminates — in particular it does not
terminate fatally by propagating "Rewrite already attempted and failed"
after 5 apply attempts, and total work is not bounded: the run is still
looping after any iteration budget `fuel`, having made at least `fuel`
apply attempts.  (The `raise RuntimeError("Rewrite already attempted and
failed")` sits inside the `try` block whose own `except RuntimeError`
handler catches it, so it is swallowed, one more refinement is requested
and `attempts` is rewound to `max_attempts - 1`, forever.) -/
theorem C1_no_fatal_exhaustion (env : AgentEnv) (hp : Bool) (fuel : Nat)
    (patch : List Char) (hfail : ∀ i p, env.applyRes i p ≠ none) :
    (apply_with_refinement env 3 hp fuel patch).1 = .outOfFuel ∧
      fuel ≤ (apply_with_refinement env 3 hp fuel patch).2.applyCount := by
  have h := runLoop_allFail env hp hfail fuel (initState patch) (by simp [initState])
  unfold apply_with_refinement
  exact ⟨h.1, by simpa [initState] using h.2⟩

/-- An environment in which every apply attempt fails, the rewrite fallback
produces a diff (whose application then also fails), and refinement always
returns a fresh response. -/
def envAllFail : AgentEnv :=
  ⟨fun _ _ => some "apply failed", fun _ p => .ok p, fun _ _ _ => sl "refined"⟩

theorem C1_no_fatal_exhaustion_witness :
    (apply_with_refinement envAllFail 3 true 7 (sl "p")).1 = .outOfFuel ∧
      7 ≤ (apply_with_refinement envAllFail 3 true 7 (sl "p")).2.applyCount :=
  C1_no_fatal_exhaustion envAllFail true 7 (sl "p") (fun _ _ => by simp [envAllFail])

/- ## Claim C10 -/

/-- Drop the progress-event log, keeping every other component of the
state (patch, counters, flags and the collaborator-call history). -/
def stripEv (s : AgentState) : AgentState := { s with events := [] }

/-- `stripEv` on a step result. -/
def stripRes : AgentState ⊕ (AgentOutcome × AgentState) →
    AgentState ⊕ (AgentOutcome × AgentState)
  | .inl s => .inl (stripEv s)
  | .inr pr => .inr (pr.1, stripEv pr.2)

/-- One loop iteration treats the progress callback as write-only: modulo
the event log, running with a callback present equals running without
one. -/
theorem stepIter_stripEv (env : AgentEnv) (m : Nat) (hp : Bool) (s : AgentState) :
    stripRes (stepIter env m hp s) = stepIter env m false (stripEv s) := by
  obtain ⟨cp, att, rwa, ac, rc, fc, cl, ev⟩ := s
  by_cases h1 : att < m
  · cases h2 : env.applyRes ac cp with
    | none =>
      cases hp <;>
        simp [stepIter, emit, stripEv, stripRes, h1, h2]
    | some msg =>
      by_cases h3 : m ≤ att + 1
      · cases rwa with
        | true =>
          cases hp <;>
            simp [stepIter, emit, stripEv, stripRes, refineStep, h1, h2, h3]
        | false =>
          cases h5 : env.rewriteRes rc cp with
          | error e =>
            cases hp <;>
              simp [stepIter, emit, stripEv, stripRes, refineStep, h1, h2, h3, h5]
          | ok fb =>
            cases h6 : env.applyRes (ac + 1) fb with
            | none =>
              cases hp <;>
                simp [stepIter, emit, stripEv, stripRes, refineStep, h1, h2, h3, h5, h6]
            | some m2 =>
              cases hp <;>
                simp [stepIter, emit, stripEv, stripRes, refineStep, h1, h2, h3, h5, h6]
      · cases hp <;>
          simp [stepIter, emit, stripEv, stripRes, refineStep, h1, h2, h3]
  · cases hp <;> simp [stepIter, emit, stripEv, stripRes, h1]

/-- The whole loop treats the progress callback as write-only. -/
theorem runLoop_stripEv (env : AgentEnv) (m : Nat) :
    ∀ fuel (s : AgentState),
      (runLoop env m true fuel s).1 = (runLoop env m false fuel (stripEv s)).1 ∧
        stripEv (runLoop env m true fuel s).2
          = (runLoop env m false fuel (stripEv s)).2 := by
  intro fuel
  induction fuel with
  | zero => intro s; exact ⟨rfl, rfl⟩
  | succ fuel ih =>
    intro s
    have h := stepIter_stripEv env m true s
    cases hstep : stepIter env m true s with
    | inl s' =>
      rw [hstep] at h
      simp only [stripRes] at h
      simp only [runLoop, hstep, ← h]
      exact ih s'
    | inr pr =>
      rw [hstep] at h
      simp only [stripRes] at h
      simp only [runLoop, hstep, ← h]
      simp

/-- Claim C10: the progress callback never influences the computation — a
run with a (non-raising, value-ignored) callback and a run with
`progress=None` have the same outcome, make the identical sequence of
apply / rewrite / refinement calls with identical arguments, and agree on
every state component except the delivered event log. -/
theorem C10_progress_write_only (env : AgentEnv) (m fuel : Nat) (patch : List Char) :
    (apply_with_refinement env m true fuel patch).1
        = (apply_with_refinement env m false fuel patch).1 ∧
      (apply_with_refinement env m true fuel patch).2.calls
        = (apply_with_refinement env m false fuel patch).2.calls ∧
      stripEv (apply_with_refinement env m true fuel patch).2
        = (apply_with_refinement env m false fuel patch).2 := by
  have h := runLoop_stripEv env m fuel (initState patch)
  have hinit : stripEv (initState patch) = initState patch := rfl
  rw [hinit] at h
  refine ⟨h.1, ?_, h.2⟩
  have := congrArg AgentState.calls h.2
  simpa [stripEv] using this

/- ## Parser soundness and the header round trip -/

/-- Every character of a digit-string capture is a digit. -/
def digitsOnly (d : List Char) : Prop := ∀ c ∈ d, c.isDigit = true

/-- The text of an optional `,count` group. -/
def optLenText : Option (List Char) → List Char
  | none => []
  | some d => ',' :: d

/-- The exact text a parsed header came from, reassembled from its groups. -/
def renderDecl (h : HunkHeader) : List Char :=
  ('@' :: '@' :: ' ' :: '-' :: []) ++ h.oldStart ++ optLenText h.oldLen
    ++ (' ' :: '+' :: []) ++ h.newStart ++ optLenText h.newLen
    ++ (' ' :: '@' :: '@' :: []) ++ h.suffix

/-- Well-formedness of the captured groups of a parsed header. -/
structure HeaderWF (h : HunkHeader) : Prop where
  oldStart_ne : h.oldStart ≠ []
  oldStart_dig : digitsOnly h.oldStart
  newStart_ne : h.newStart ≠ []
  newStart_dig : digitsOnly h.newStart
  oldLen_dig : ∀ d, h.oldLen = some d → d ≠ [] ∧ digitsOnly d
  newLen_dig : ∀ d, h.newLen = some d → d ≠ [] ∧ digitsOnly d

theorem takeDigits_sound (s : List Char) :
    s = (takeDigits s).1 ++ (takeDigits s).2 ∧ digitsOnly (takeDigits s).1 := by
  induction s with
  | nil => exact ⟨rfl, by intro c hc; cases hc⟩
  | cons c rest ih =>
    simp only [takeDigits]
    split
    case isTrue hd =>
      refine ⟨by simpa using ih.1, ?_⟩
      intro x hx
      rcases List.mem_cons.mp hx with h | h
      · subst h; exact hd
      · exact ih.2 x h
    case isFalse hd => exact ⟨rfl, by intro c hc; cases hc⟩

theorem parseOptLen_sound (s : List Char) :
    s = optLenText (parseOptLen s).1 ++ (parseOptLen s).2 ∧
      ∀ d, (parseOptLen s).1 = some d → d ≠ [] ∧ digitsOnly d := by
  unfold parseOptLen
  split
  case h_1 rest =>
    have hs := takeDigits_sound rest
    dsimp only
    split
    case isTrue h0 => exact ⟨rfl, by intro d hd; cases hd⟩
    case isFalse h0 =>
      constructor
      · simpa [optLenText] using hs.1
      · intro d hd
        simp only [Option.some.injEq] at hd
        subst hd
        exact ⟨h0, hs.2⟩
  case h_2 => exact ⟨rfl, by intro d hd; cases hd⟩

theorem parseHunkHeader_sound {l : List Char} {h : HunkHeader}
    (hp : parseHunkHeader l = some h) : l = renderDecl h ∧ HeaderWF h := by
  unfold parseHunkHeader at hp
  split at hp
  case h_2 => cases hp
  case h_1 rest =>
    dsimp only at hp
    have h1 := takeDigits_sound rest
    split at hp
    case isTrue => cases hp
    case isFalse h1ne =>
      have h2 := parseOptLen_sound (takeDigits rest).2
      split at hp
      case h_2 => cases hp
      case h_1 r3 heq =>
        have h3 := takeDigits_sound r3
        split at hp
        case isTrue => cases hp
        case isFalse h3ne =>
          have h4 := parseOptLen_sound (takeDigits r3).2
          split at hp
          case h_2 => cases hp
          case h_1 suffix heq4 =>
            simp only [Option.some.injEq] at hp
            subst hp
            constructor
            · have e1 := h1.1
              have e2 := h2.1
              have e3 := h3.1
              have e4 := h4.1
              rw [heq] at e2
              rw [heq4] at e4
              simp only [renderDecl]
              conv_lhs => rw [e1, e2, e3, e4]
              simp [List.append_assoc]
            · exact ⟨h1ne, h1.2, h3ne, h3.2, h2.2, h4.2⟩

theorem digitChar_isDigit (d : Nat) : (digitChar d).isDigit = true := by
  unfold digitChar; split <;> decide

theorem digitChar_toNat (d : Nat) (h : d < 10) : (digitChar d).toNat - 48 = d := by
  interval_cases d <;> decide

theorem natDigitsGo_digits (fuel n : Nat) : digitsOnly (natDigitsGo fuel n) := by
  induction fuel generalizing n with
  | zero => intro c hc; cases hc
  | succ fuel ih =>
    intro c hc
    simp only [natDigitsGo] at hc
    split at hc
    · rcases List.mem_singleton.mp hc with rfl
      exact digitChar_isDigit n
    · rcases List.mem_append.mp hc with h | h
      · exact ih (n / 10) c h
      · rcases List.mem_singleton.mp h with rfl
        exact digitChar_isDigit (n % 10)

theorem natDigitsGo_ne (fuel n : Nat) : natDigitsGo (fuel + 1) n ≠ [] := by
  simp only [natDigitsGo]
  split
  · simp
  · simp

theorem decVal_concat (l : List Char) (c : Char) :
    decVal (l ++ [c]) = decVal l * 10 + (c.toNat - 48) := by
  simp [decVal, List.foldl_append]

theorem decVal_natDigitsGo (fuel n : Nat) (h : n < fuel) :
    decVal (natDigitsGo fuel n) = n := by
  induction fuel generalizing n with
  | zero => omega
  | succ fuel ih =>
    simp only [natDigitsGo]
    split
    case isTrue hn =>
      simp only [decVal, List.foldl_cons, List.foldl_nil, Nat.zero_mul, Nat.zero_add]
      exact digitChar_toNat n hn
    case isFalse hn =>
      have hdiv : n / 10 < fuel := by
        have := Nat.div_lt_self (by omega : 0 < n) (by omega : 1 < 10)
        omega
      rw [decVal_concat, ih (n / 10) hdiv, digitChar_toNat (n % 10) (Nat.mod_lt n (by omega))]
      have := Nat.div_add_mod n 10
      omega

theorem natDigits_digits (n : Nat) : digitsOnly (natDigits n) := natDigitsGo_digits _ n

theorem natDigits_ne (n : Nat) : natDigits n ≠ [] := natDigitsGo_ne n n

theorem decVal_natDigits (n : Nat) : decVal (natDigits n) = n :=
  decVal_natDigitsGo (n + 1) n (by omega)

theorem head_not_digit_cons {c : Char} (l : List Char) (h : c.isDigit = false) :
    ∀ x, ((c :: l).head? = some x) → x.isDigit = false := by
  intro x hx
  rw [List.head?_cons, Option.some.injEq] at hx
  rw [← hx]
  exact h

theorem takeDigits_append (d r : List Char) (hd : digitsOnly d)
    (hr : ∀ c, r.head? = some c → c.isDigit = false) :
    takeDigits (d ++ r) = (d, r) := by
  induction d with
  | nil =>
    cases r with
    | nil => rfl
    | cons c r' =>
      simp only [List.nil_append, takeDigits]
      rw [if_neg]
      simp [hr c rfl]
  | cons c d' ih =>
    simp only [List.cons_append, takeDigits]
    rw [if_pos (hd c (List.mem_cons_self c d'))]
    have := ih (fun x hx => hd x (List.mem_cons_of_mem c hx))
    rw [List.append_eq, this]

/-- Re-parsing a rewritten header recovers the same starts and suffix, with
the recomputed counts as the declared ones. -/
theorem parseHunkHeader_render (os ns : List Char) (ol nl : Option (List Char))
    (suf : List Char) (oc nc : Nat)
    (hos : digitsOnly os) (hosne : os ≠ []) (hns : digitsOnly ns) (hnsne : ns ≠ []) :
    parseHunkHeader (renderHeader ⟨os, ol, ns, nl, suf⟩ oc nc)
      = some ⟨os, some (natDigits oc), ns, some (natDigits nc), suf⟩ := by
  have e1 : renderHeader ⟨os, ol, ns, nl, suf⟩ oc nc
      = '@' :: '@' :: ' ' :: '-' ::
        (os ++ ',' :: (natDigits oc ++ ' ' :: '+' ::
          (ns ++ ',' :: (natDigits nc ++ ' ' :: '@' :: '@' :: suf)))) := by
    simp [renderHeader, List.append_assoc]
  rw [e1]
  have t1 := takeDigits_append os
    (',' :: (natDigits oc ++ ' ' :: '+' :: (ns ++ ',' :: (natDigits nc ++ ' ' :: '@' :: '@' :: suf))))
    hos (head_not_digit_cons _ (by decide))
  have t2 := takeDigits_append (natDigits oc)
    (' ' :: '+' :: (ns ++ ',' :: (natDigits nc ++ ' ' :: '@' :: '@' :: suf)))
    (natDigits_digits oc) (head_not_digit_cons _ (by decide))
  have t3 := takeDigits_append ns
    (',' :: (natDigits nc ++ ' ' :: '@' :: '@' :: suf))
    hns (head_not_digit_cons _ (by decide))
  have t4 := takeDigits_append (natDigits nc)
    (' ' :: '@' :: '@' :: suf)
    (natDigits_digits nc) (head_not_digit_cons _ (by decide))
  simp only [parseHunkHeader, t1, parseOptLen, t2, t3, t4,
    if_neg hosne, if_neg hnsne, if_neg (natDigits_ne oc), if_neg (natDigits_ne nc)]

/- ## Claim C2 -/

/-- The body of a hunk as the scan of `normalize_patch` delimits it: the
lines following the header up to (excluding) the first line satisfying the
scan's break condition. -/
def bodyLines : List Char → List (List Char) → List (List Char)
  | _, [] => []
  | prev, c :: rest => if scanStop prev c then [] else c :: bodyLines c rest

/-- Which body lines the scan counts towards the old side: every line
except `\ No newline at end of file` markers and `+`-prefixed lines —
including lines starting with `---`. -/
def addsOld (c : List Char) : Bool :=
  !(startsWith nnlMark c) && !(startsWith ['+'] c)

/-- Which body lines the scan counts towards the new side: `+`-prefixed
lines (including `+++`) and unprefixed context lines, but not markers. -/
def addsNew (c : List Char) : Bool :=
  !(startsWith nnlMark c) && (startsWith ['+'] c || !(startsWith ['-'] c))

/-- The iterative recount equals the declarative count over the delimited
body. -/
theorem scanBody_eq_count (prev : List Char) (rest : List (List Char)) :
    scanBody prev rest =
      ((bodyLines prev rest).countP addsOld, (bodyLines prev rest).countP addsNew) := by
  induction rest generalizing prev with
  | nil => rfl
  | cons c rest ih =>
    simp only [scanBody, bodyLines]
    by_cases hstop : scanStop prev c = true
    · simp [hstop]
    · simp only [hstop, Bool.false_eq_true, if_false]
      by_cases hm : startsWith nnlMark c = true
      · simp [hm, ih c, addsOld, addsNew, List.countP_cons]
      · by_cases hplus : startsWith ['+'] c = true
        · simp [hm, hplus, ih c, addsOld, addsNew, List.countP_cons]
        · by_cases hminus : startsWith ['-'] c = true
          · simp [hm, hplus, hminus, ih c, addsOld, addsNew, List.countP_cons]
          · simp [hm, hplus, hminus, ih c, addsOld, addsNew, List.countP_cons]

/-- Count towards the old side as claim C2 words it: a `-` line that is not
a `---` line, or an unprefixed context line; markers add nothing. -/
def claimOld (c : List Char) : Bool :=
  !(startsWith nnlMark c) &&
    ((startsWith ['-'] c && !(startsWith (sl "---") c)) ||
      (!(startsWith ['-'] c) && !(startsWith ['+'] c)))

/-- Count towards the new side as claim C2 words it: a `+` line that is not
a `+++` line, or an unprefixed context line; markers add nothing. -/
def claimNew (c : List Char) : Bool :=
  !(startsWith nnlMark c) &&
    ((startsWith ['+'] c && !(startsWith (sl "+++") c)) ||
      (!(startsWith ['-'] c) && !(startsWith ['+'] c)))

/-- A hunk declaring counts `1,1` whose body is one context line and one
`---`-prefixed line (not preceded by a `diff --git` line). -/
def dashBodyPatch : List Char := sl "@@ -1,1 +1,1 @@\n ctx\n--- weird\n"

/-- Claim C2 counterexample: under the claim's counting rule the body of
`dashBodyPatch` counts `(1, 1)`, equal to the declared counts, so the claim
predicts the header is left alone and the patch passes through unchanged;
the code, however, counts the `--- weird` line as a removed line (its scan
excludes nothing for `---`), recomputes `(2, 1)` and rewrites the header. -/
theorem C2_counterexample :
    ([sl " ctx", sl "--- weird"].countP claimOld = 1 ∧
      [sl " ctx", sl "--- weird"].countP claimNew = 1) ∧
    normalize_patch dashBodyPatch ≠ dashBodyPatch ∧
    normalize_patch dashBodyPatch = sl "@@ -1,2 +1,1 @@\n ctx\n--- weird\n" := by
  refine ⟨⟨?_, ?_⟩, ?_, ?_⟩ <;> decide

/-- Claim C2 as amended: on each hunk header, the recount scans the body up
to the next hunk header, the next `diff --git ` line, or a `--- ` line
directly following a `diff --git ` line; a `\ No newline at end of file`
marker adds nothing; otherwise **every** line starting with `+` (including
`+++`) adds 1 to the new count, **every** line starting with `-` (including
`---`) adds 1 to the old count, and any other line adds 1 to both; the
header is rewritten with the recomputed counts exactly when they differ
from the declared ones. -/
theorem C2_recount_rule (line : List Char) (rest : List (List Char))
    (h : HunkHeader) (hp : parseHunkHeader line = some h) :
    (processLines (line :: rest)).1 =
      (if (bodyLines line rest).countP addsOld = declaredOld h ∧
          (bodyLines line rest).countP addsNew = declaredNew h then line
       else renderHeader h ((bodyLines line rest).countP addsOld)
              ((bodyLines line rest).countP addsNew)) :: (processLines rest).1 := by
  simp only [processLines, hp, scanBody_eq_count]
  split
  case isTrue hc => rfl
  case isFalse hc => rfl

theorem C2_recount_rule_witness :
    (processLines [sl "@@ -1 +1 @@", sl " x"]).1 =
      (if (bodyLines (sl "@@ -1 +1 @@") [sl " x"]).countP addsOld
            = declaredOld ⟨sl "1", none, sl "1", none, []⟩ ∧
          (bodyLines (sl "@@ -1 +1 @@") [sl " x"]).countP addsNew
            = declaredNew ⟨sl "1", none, sl "1", none, []⟩ then sl "@@ -1 +1 @@"
       else renderHeader ⟨sl "1", none, sl "1", none, []⟩
              ((bodyLines (sl "@@ -1 +1 @@") [sl " x"]).countP addsOld)
              ((bodyLines (sl "@@ -1 +1 @@") [sl " x"]).countP addsNew))
        :: (processLines [sl " x"]).1 :=
  C2_recount_rule (sl "@@ -1 +1 @@") [sl " x"] ⟨sl "1", none, sl "1", none, []⟩
    (by decide)

/- ## Claim C9 -/

/-- The exact relation between an input line and its processed form: it is
unchanged, or it is a hunk header rewritten by `renderHeader` with some
counts, re-parsing to the same starts and suffix with the new counts
declared. -/
def FrameS (a b : List Char) : Prop :=
  b = a ∨ ∃ h oc nc, parseHunkHeader a = some h ∧ b = renderHeader h oc nc ∧
    parseHunkHeader b
      = some ⟨h.oldStart, some (natDigits oc), h.newStart, some (natDigits nc), h.suffix⟩

/-- `processLines` relates every input line to its output line by
`FrameS`, position by position. -/
theorem processLines_frame (L : List (List Char)) :
    List.Forall₂ FrameS L (processLines L).1 := by
  induction L with
  | nil => exact List.Forall₂.nil
  | cons c rest ih =>
    simp only [processLines]
    cases hp : parseHunkHeader c with
    | none => exact List.Forall₂.cons (Or.inl rfl) ih
    | some h =>
      dsimp only
      split
      · exact List.Forall₂.cons (Or.inl rfl) ih
      · refine List.Forall₂.cons (Or.inr ⟨h, _, _, hp, rfl, ?_⟩) ih
        obtain ⟨-, wf⟩ := parseHunkHeader_sound hp
        obtain ⟨os, ol, ns, nl, suf⟩ := h
        exact parseHunkHeader_render os ns ol nl suf _ _
          wf.oldStart_dig wf.oldStart_ne wf.newStart_dig wf.newStart_ne

/-- The line-level preservation claim C9 makes: non-header lines unchanged
in place, headers still headers with the same old start, new start and
trailing annotation. -/
def FrameRel (a b : List Char) : Prop :=
  (parseHunkHeader a = none → b = a) ∧
  (∀ h, parseHunkHeader a = some h → ∃ h2, parseHunkHeader b = some h2 ∧
    h2.oldStart = h.oldStart ∧ h2.newStart = h.newStart ∧ h2.suffix = h.suffix)

theorem FrameS_to_FrameRel {a b : List Char} (hs : FrameS a b) : FrameRel a b := by
  cases hs with
  | inl he =>
    subst he
    exact ⟨fun _ => rfl, fun h hp => ⟨h, hp, rfl, rfl, rfl⟩⟩
  | inr hr =>
    obtain ⟨h, oc, nc, hp, hb, hpb⟩ := hr
    constructor
    · intro hnone; rw [hp] at hnone; cases hnone
    · intro h1 hp1
      rw [hp] at hp1
      injection hp1 with hp1
      subst hp1
      exact ⟨_, hpb, rfl, rfl, rfl⟩

/-- The empty last line of the input (a counted context line) is not a line
of the output text. -/
def dropLinePatch : List Char := sl "@@ -5 +7 @@\nabc\n\n"

/-- Claim C9 counterexample: on `"@@ -5 +7 @@\nabc\n\n"` the rewrite path
joins the processed lines with `"\n"`, which absorbs the trailing empty
line: the input's non-header lines are `["abc", ""]` but the output's are
`["abc"]`, so not every non-header line appears in the output. -/
theorem C9_counterexample :
    (splitlines (sanitize dropLinePatch)).filter (fun l => (parseHunkHeader l).isNone)
        = [sl "abc", []] ∧
      (splitlines (normalize_patch dropLinePatch)).filter (fun l => (parseHunkHeader l).isNone)
        = [sl "abc"] ∧
      normalize_patch dropLinePatch = sl "@@ -5,2 +7,2 @@\nabc\n" := by
  refine ⟨?_, ?_, ?_⟩ <;> decide

/-- Claim C9 as amended: after CRLF/CR → LF conversion, the processed
**line array** modifies hunk-header lines only — every non-header line is
unchanged at its position, and every rewritten header keeps its old start,
new start and trailing annotation, with only the two count fields changed;
the emitted text is the newline-join of this array, so a trailing empty
line is absorbed into the final trailing newline when a header was
rewritten (the counterexample), which is the sole deviation from verbatim
appearance. -/
theorem C9_frame (p : List Char) :
    List.Forall₂ FrameRel (splitlines (sanitize p))
      ((processLines (splitlines (sanitize p))).1) :=
  (processLines_frame _).imp fun _ _ hs => FrameS_to_FrameRel hs

/- ## Text-level lemmas for the normalization fixpoint -/

theorem sanitize_no_cr (p : List Char) : '\r' ∉ sanitize p := by
  induction p using sanitize.induct with
  | case1 => simp [sanitize]
  | case2 rest ih =>
    rw [sanitize.eq_2]
    simp only [List.mem_cons]
    rintro (h | h)
    · exact absurd h (by decide)
    · exact ih h
  | case3 rest h ih =>
    rw [sanitize.eq_3 rest h]
    simp only [List.mem_cons]
    rintro (h1 | h1)
    · exact absurd h1 (by decide)
    · exact ih h1
  | case4 c rest h1 h2 ih =>
    rw [sanitize.eq_4 c rest h1 h2]
    simp only [List.mem_cons]
    rintro (h3 | h3)
    · exact h2 h3.symm
    · exact ih h3

theorem sanitize_eq_of_no_cr (s : List Char) (h : '\r' ∉ s) : sanitize s = s := by
  induction s with
  | nil => rfl
  | cons c rest ih =>
    have hc : c ≠ '\r' := fun he => h (he ▸ List.mem_cons_self c rest)
    rw [sanitize.eq_4 c rest (fun _ hcr _ => hc hcr) (fun hcr => hc hcr),
      ih (fun hm => h (List.mem_cons_of_mem c hm))]

theorem splitlines_no_newline (s : List Char) :
    ∀ l ∈ splitlines s, '\n' ∉ l := by
  induction s using splitlines.induct with
  | case1 => intro l hl; cases hl
  | case2 rest ih =>
    intro l hl
    rw [splitlines.eq_2] at hl
    rcases List.mem_cons.mp hl with rfl | hl
    · simp
    · exact ih l hl
  | case3 c rest h hrest ih =>
    intro l hl
    rw [splitlines.eq_3 c rest h, hrest] at hl
    rcases List.mem_singleton.mp hl with rfl
    intro hmem
    rcases List.mem_singleton.mp hmem with rfl
    exact h rfl
  | case4 c rest h l0 ls hrest ih =>
    intro l hl
    rw [splitlines.eq_3 c rest h, hrest] at hl
    rcases List.mem_cons.mp hl with rfl | hl
    · intro hmem
      rcases List.mem_cons.mp hmem with rfl | hmem
      · exact h rfl
      · exact ih l0 (hrest ▸ List.mem_cons_self l0 ls) hmem
    · exact ih l (hrest ▸ List.mem_cons_of_mem l0 hl)

theorem splitlines_subset (s : List Char) :
    ∀ l ∈ splitlines s, ∀ c ∈ l, c ∈ s := by
  induction s using splitlines.induct with
  | case1 => intro l hl; cases hl
  | case2 rest ih =>
    intro l hl c hc
    rw [splitlines.eq_2] at hl
    rcases List.mem_cons.mp hl with rfl | hl
    · cases hc
    · exact List.mem_cons_of_mem _ (ih l hl c hc)
  | case3 c0 rest h hrest ih =>
    intro l hl c hc
    rw [splitlines.eq_3 c0 rest h, hrest] at hl
    rcases List.mem_singleton.mp hl with rfl
    rcases List.mem_singleton.mp hc with rfl
    exact List.mem_cons_self c rest
  | case4 c0 rest h l0 ls hrest ih =>
    intro l hl c hc
    rw [splitlines.eq_3 c0 rest h, hrest] at hl
    rcases List.mem_cons.mp hl with rfl | hl
    · rcases List.mem_cons.mp hc with rfl | hc
      · exact List.mem_cons_self c rest
      · exact List.mem_cons_of_mem _ (ih l0 (hrest ▸ List.mem_cons_self l0 ls) c hc)
    · exact List.mem_cons_of_mem _ (ih l (hrest ▸ List.mem_cons_of_mem l0 hl) c hc)

theorem splitlines_append_cons (l r : List Char) (hl : '\n' ∉ l) :
    splitlines (l ++ '\n' :: r) = l :: splitlines r := by
  induction l with
  | nil => simp [splitlines.eq_2]
  | cons c l' ih =>
    have hc : c ≠ '\n' := fun he => hl (he ▸ List.mem_cons_self c l')
    have ih' := ih (fun hm => hl (List.mem_cons_of_mem c hm))
    rw [List.cons_append, splitlines.eq_3 c _ (fun he => hc he), ih']

theorem splitlines_concat_nl (s : List Char) (hne : s ≠ [])
    (hlast : s.getLast? ≠ some '\n') :
    splitlines (s ++ ['\n']) = splitlines s := by
  induction s with
  | nil => exact absurd rfl hne
  | cons c rest ih =>
    rcases rest with _ | ⟨d, rest2⟩
    · have hc : c ≠ '\n' := by
        intro he
        exact hlast (by simp [he])
      rw [List.cons_append, List.nil_append,
        splitlines.eq_3 c ['\n'] (fun he => hc he),
        splitlines.eq_3 c [] (fun he => hc he)]
      rfl
    · have hrne : d :: rest2 ≠ [] := by simp
      have hlast2 : (d :: rest2).getLast? ≠ some '\n' := by
        rwa [List.getLast?_cons_cons] at hlast
      have ih2 := ih hrne hlast2
      rw [List.cons_append]
      by_cases hc : c = '\n'
      · subst hc
        rw [splitlines.eq_2, splitlines.eq_2, ih2]
      · rw [splitlines.eq_3 c _ (fun he => hc he), ih2,
          splitlines.eq_3 c _ (fun he => hc he)]

theorem joinLines_ne_nil (ls : List (List Char)) (hne : ls ≠ [])
    (hlast : ls.getLast? ≠ some []) : joinLines ls ≠ [] := by
  rcases ls with _ | ⟨l, ls'⟩
  · exact absurd rfl hne
  · rcases ls' with _ | ⟨l2, ls2⟩
    · simpa [joinLines] using fun he => hlast (by simp [he])
    · simp [joinLines]

theorem joinLines_mem (ch : Char) (hch : ch ≠ '\n') (ls : List (List Char))
    (h : ∀ l ∈ ls, ch ∉ l) : ch ∉ joinLines ls := by
  induction ls with
  | nil => simp [joinLines]
  | cons l ls' ih =>
    rcases ls' with _ | ⟨l2, ls2⟩
    · simpa [joinLines] using h l (List.mem_cons_self l [])
    · simp only [joinLines, List.mem_append, List.mem_cons]
      rintro (hm | hm | hm)
      · exact h l (List.mem_cons_self _ _) hm
      · exact hch hm
      · exact ih (fun x hx => h x (List.mem_cons_of_mem l hx)) hm

theorem joinLines_getLast_ne_nl (ls : List (List Char)) (hne : ls ≠ [])
    (hnl : ∀ l ∈ ls, '\n' ∉ l) (hlast : ls.getLast? ≠ some []) :
    (joinLines ls).getLast? ≠ some '\n' := by
  induction ls with
  | nil => exact absurd rfl hne
  | cons l ls' ih =>
    rcases ls' with _ | ⟨l2, ls2⟩
    · intro hc
      have hm := List.mem_getLast?_eq_getLast (x := '\n') (by simpa [joinLines] using hc)
      obtain ⟨hl1, he⟩ := hm
      exact hnl l (List.mem_cons_self _ _) (he ▸ List.getLast_mem hl1)
    · have hne2 : l2 :: ls2 ≠ [] := by simp
      have hlast2 : (l2 :: ls2).getLast? ≠ some [] := by
        rwa [List.getLast?_cons_cons] at hlast
      have hnl2 : ∀ x ∈ l2 :: ls2, '\n' ∉ x :=
        fun x hx => hnl x (List.mem_cons_of_mem l hx)
      have hjoin_ne : joinLines (l2 :: ls2) ≠ [] := joinLines_ne_nil _ hne2 hlast2
      have ih2 := ih hne2 hnl2 hlast2
      show (joinLines (l :: l2 :: ls2)).getLast? ≠ some '\n'
      have : joinLines (l :: l2 :: ls2) = l ++ '\n' :: joinLines (l2 :: ls2) := rfl
      rw [this, List.getLast?_append_of_ne_nil l (by simp)]
      rcases hj : joinLines (l2 :: ls2) with _ | ⟨a, y⟩
      · exact absurd hj hjoin_ne
      · rw [List.getLast?_cons_cons]
        rw [hj] at ih2
        exact ih2

theorem splitlines_joinLines (ls : List (List Char)) (hne : ls ≠ [])
    (hnl : ∀ l ∈ ls, '\n' ∉ l) (hlast : ls.getLast? ≠ some []) :
    splitlines (joinLines ls ++ ['\n']) = ls := by
  induction ls with
  | nil => exact absurd rfl hne
  | cons l ls' ih =>
    rcases ls' with _ | ⟨l2, ls2⟩
    · have : joinLines [l] = l := rfl
      rw [this, splitlines_append_cons l [] (hnl l (List.mem_cons_self _ _))]
      rfl
    · have hne2 : l2 :: ls2 ≠ [] := by simp
      have hlast2 : (l2 :: ls2).getLast? ≠ some [] := by
        rwa [List.getLast?_cons_cons] at hlast
      have hnl2 : ∀ x ∈ l2 :: ls2, '\n' ∉ x :=
        fun x hx => hnl x (List.mem_cons_of_mem l hx)
      have ih2 := ih hne2 hnl2 hlast2
      have e0 : joinLines (l :: l2 :: ls2) = l ++ '\n' :: joinLines (l2 :: ls2) := rfl
      have e1 : ('\n' :: joinLines (l2 :: ls2)) ++ ['\n']
          = '\n' :: (joinLines (l2 :: ls2) ++ ['\n']) := rfl
      rw [e0, List.append_assoc, e1,
        splitlines_append_cons l _ (hnl l (List.mem_cons_self _ _)), ih2]

/- ## Scan stability under header rewriting -/

/-- What the recount scan can distinguish: two lines are scan-equivalent if
equal, or if both parse as hunk headers (any header stops the scan and a
header line, starting `@@ -`, never carries the other break prefixes). -/
def ScanEq (a b : List Char) : Prop :=
  a = b ∨ ((parseHunkHeader a).isSome ∧ (parseHunkHeader b).isSome)

theorem parse_shape {l : List Char} {h : HunkHeader}
    (hp : parseHunkHeader l = some h) :
    ∃ t, l = '@' :: '@' :: ' ' :: '-' :: t := by
  obtain ⟨hd, -⟩ := parseHunkHeader_sound hp
  exact ⟨_, by rw [hd]; rfl⟩

theorem parse_not_dg {l : List Char} (hp : (parseHunkHeader l).isSome = true) :
    startsWith dgMark l = false := by
  obtain ⟨h, hh⟩ := Option.isSome_iff_exists.mp hp
  obtain ⟨t, rfl⟩ := parse_shape hh
  rfl

theorem scanStop_congr {p q c d : List Char} (hpq : ScanEq p q) (hcd : ScanEq c d) :
    scanStop p c = scanStop q d := by
  cases hcd with
  | inl he =>
    subst he
    cases hpq with
    | inl he2 => subst he2; rfl
    | inr hh =>
      unfold scanStop
      rw [parse_not_dg hh.1, parse_not_dg hh.2]
  | inr hh =>
    unfold scanStop
    rw [hh.1, hh.2]
    rfl

theorem scanStop_false_eq {p c d : List Char} (hcd : ScanEq c d)
    (hstop : scanStop p c = false) : c = d := by
  cases hcd with
  | inl he => exact he
  | inr hh =>
    unfold scanStop at hstop
    rw [hh.1] at hstop
    simp at hstop

theorem scanBody_congr {prev prev' : List Char} {rest rest' : List (List Char)}
    (hp : ScanEq prev prev') (hr : List.Forall₂ ScanEq rest rest') :
    scanBody prev rest = scanBody prev' rest' := by
  induction hr generalizing prev prev' with
  | nil => rfl
  | cons hcd hrest ih =>
    rename_i c d cs ds
    simp only [scanBody]
    rw [scanStop_congr hp hcd]
    by_cases hstop : scanStop prev' d = true
    · rw [hstop]
      rfl
    · rw [Bool.not_eq_true] at hstop
      rw [hstop]
      have hce : c = d := scanStop_false_eq hcd (by rw [scanStop_congr hp hcd, hstop])
      subst hce
      rw [ih (Or.inl rfl)]

theorem FrameS_to_ScanEq {a b : List Char} (h : FrameS a b) : ScanEq a b := by
  cases h with
  | inl he => exact Or.inl he.symm
  | inr hr =>
    obtain ⟨hh, oc, nc, hp, hb, hpb⟩ := hr
    exact Or.inr ⟨by rw [hp]; rfl, by rw [hpb]; rfl⟩

theorem processLines_snd_false {L : List (List Char)}
    (h : (processLines L).2 = false) : (processLines L).1 = L := by
  induction L with
  | nil => rfl
  | cons c rest ih =>
    simp only [processLines] at h ⊢
    cases hp : parseHunkHeader c with
    | none =>
      rw [hp] at h
      rw [ih h]
    | some hh =>
      rw [hp] at h
      dsimp only at h ⊢
      split at h
      · rw [if_pos (by assumption), ih h]
      · cases h

/-- Reprocessing an already-processed line array changes nothing: every
rewritten header re-parses with its recomputed counts declared, the scan
sees the same bodies, and no header is rewritten again. -/
theorem processLines_fix (L : List (List Char)) :
    processLines ((processLines L).1) = ((processLines L).1, false) := by
  induction L with
  | nil => rfl
  | cons c rest ih =>
    have hseq : List.Forall₂ ScanEq rest (processLines rest).1 :=
      (processLines_frame rest).imp fun _ _ hs => FrameS_to_ScanEq hs
    simp only [processLines]
    cases hp : parseHunkHeader c with
    | none =>
      dsimp only
      simp only [processLines, hp, ih]
    | some h =>
      dsimp only
      split
      case isTrue hcnt =>
        simp only [processLines, hp]
        have hscan : scanBody c (processLines rest).1 = scanBody c rest :=
          (scanBody_congr (Or.inl rfl) hseq).symm
        rw [hscan, if_pos hcnt, ih]
      case isFalse hcnt =>
        obtain ⟨-, wf⟩ := parseHunkHeader_sound hp
        obtain ⟨os, ol, ns, nl, suf⟩ := h
        have hpr := parseHunkHeader_render os ns ol nl suf
          (scanBody c rest).1 (scanBody c rest).2
          wf.oldStart_dig wf.oldStart_ne wf.newStart_dig wf.newStart_ne
        simp only [processLines, hpr]
        have hscn : ScanEq c (renderHeader ⟨os, ol, ns, nl, suf⟩
            (scanBody c rest).1 (scanBody c rest).2) :=
          Or.inr ⟨by rw [hp]; rfl, by rw [hpr]; rfl⟩
        have hscan : scanBody (renderHeader ⟨os, ol, ns, nl, suf⟩
              (scanBody c rest).1 (scanBody c rest).2) (processLines rest).1
            = scanBody c rest := (scanBody_congr hscn hseq).symm
        rw [hscan]
        have hdo : (scanBody c rest).1 = declaredOld
            ⟨os, some (natDigits (scanBody c rest).1), ns,
              some (natDigits (scanBody c rest).2), suf⟩ := by
          simp [declaredOld, decVal_natDigits]
        have hdn : (scanBody c rest).2 = declaredNew
            ⟨os, some (natDigits (scanBody c rest).1), ns,
              some (natDigits (scanBody c rest).2), suf⟩ := by
          simp [declaredNew, decVal_natDigits]
        rw [if_pos ⟨hdo, hdn⟩, ih]

theorem Forall₂_mem_right {α β : Type} {R : α → β → Prop}
    {l : List α} {l' : List β} (h : List.Forall₂ R l l') :
    ∀ b ∈ l', ∃ a ∈ l, R a b := by
  induction h with
  | nil => intro b hb; cases hb
  | cons hR hrest ih =>
    intro b hb
    rcases List.mem_cons.mp hb with rfl | hb
    · exact ⟨_, List.mem_cons_self _ _, hR⟩
    · obtain ⟨a, ha, haR⟩ := ih b hb
      exact ⟨a, List.mem_cons_of_mem _ ha, haR⟩

theorem Forall₂_getLast {α β : Type} {R : α → β → Prop} :
    ∀ {l : List α} {l' : List β}, List.Forall₂ R l l' → ∀ a, l.getLast? = some a →
      ∃ b, l'.getLast? = some b ∧ R a b := by
  intro l l' h
  induction h with
  | nil => intro a ha; cases ha
  | cons hR hrest ih =>
    rename_i x y xs ys
    intro a ha
    rcases xs with _ | ⟨x2, xs2⟩
    · have hys : ys = [] := List.length_eq_zero.mp (by rw [← hrest.length_eq]; rfl)
      subst hys
      simp only [List.getLast?_singleton, Option.some.injEq] at ha
      subst ha
      exact ⟨y, rfl, hR⟩
    · have hys : ys ≠ [] := by
        intro he
        subst he
        exact absurd hrest.length_eq (by simp)
      rcases ys with _ | ⟨y2, ys2⟩
      · exact absurd rfl hys
      · rw [List.getLast?_cons_cons] at ha
        obtain ⟨b, hb, hbR⟩ := ih a ha
        exact ⟨b, by rwa [List.getLast?_cons_cons], hbR⟩

theorem mem_renderDecl_oldStart {h : HunkHeader} {c : Char}
    (hc : c ∈ h.oldStart) : c ∈ renderDecl h := by
  simp only [renderDecl, List.mem_append]
  tauto

theorem mem_renderDecl_newStart {h : HunkHeader} {c : Char}
    (hc : c ∈ h.newStart) : c ∈ renderDecl h := by
  simp only [renderDecl, List.mem_append]
  tauto

theorem mem_renderDecl_suffix {h : HunkHeader} {c : Char}
    (hc : c ∈ h.suffix) : c ∈ renderDecl h := by
  simp only [renderDecl, List.mem_append]
  tauto

/-- Characters of a rewritten header: header literals, digits, or
characters of the original captured groups. -/
theorem mem_renderHeader {h : HunkHeader} {oc nc : Nat} {ch : Char}
    (hm : ch ∈ renderHeader h oc nc) :
    ch = '@' ∨ ch = ' ' ∨ ch = '-' ∨ ch = '+' ∨ ch = ',' ∨ ch.isDigit = true ∨
      ch ∈ h.oldStart ∨ ch ∈ h.newStart ∨ ch ∈ h.suffix := by
  have d1 := natDigits_digits oc ch
  have d2 := natDigits_digits nc ch
  simp only [renderHeader, List.mem_append, List.mem_cons, List.not_mem_nil,
    or_false, false_or] at hm
  tauto

/-- A processed line only contains characters of its source line, digits,
and the header literals. -/
theorem FrameS_char {a b : List Char} (hf : FrameS a b) (ch : Char)
    (hdig : ch.isDigit = false) (hlit : ch ∉ ['@', ' ', '-', '+', ','])
    (hmem : ch ∉ a) : ch ∉ b := by
  cases hf with
  | inl he => exact he ▸ hmem
  | inr hr =>
    obtain ⟨h, oc, nc, hp, hb, -⟩ := hr
    obtain ⟨hdecl, -⟩ := parseHunkHeader_sound hp
    subst hb
    obtain ⟨n1, n2, n3, n4, n5⟩ :
        ch ≠ '@' ∧ ch ≠ ' ' ∧ ch ≠ '-' ∧ ch ≠ '+' ∧ ch ≠ ',' := by simpa using hlit
    intro hcb
    rcases mem_renderHeader hcb with hc | hc | hc | hc | hc | hc | hc | hc | hc
    · exact n1 hc
    · exact n2 hc
    · exact n3 hc
    · exact n4 hc
    · exact n5 hc
    · simp [hc] at hdig
    · exact hmem (hdecl ▸ mem_renderDecl_oldStart hc)
    · exact hmem (hdecl ▸ mem_renderDecl_newStart hc)
    · exact hmem (hdecl ▸ mem_renderDecl_suffix hc)

theorem FrameS_ne_nil {a b : List Char} (hf : FrameS a b) (ha : a ≠ []) : b ≠ [] := by
  cases hf with
  | inl he => exact he ▸ ha
  | inr hr =>
    obtain ⟨h, oc, nc, -, hb, -⟩ := hr
    subst hb
    simp [renderHeader]

theorem ensureNL_eq_self {s : List Char} (h : s.getLast? = some '\n') :
    ensureNL s = s := if_pos h

theorem ensureNL_eq_append {s : List Char} (h : s.getLast? ≠ some '\n') :
    ensureNL s = s ++ ['\n'] := if_neg h

theorem normalize_patch_def (p : List Char) :
    normalize_patch p =
      ensureNL (if (processLines (splitlines (sanitize p))).2
        then joinLines (processLines (splitlines (sanitize p))).1
        else sanitize p) := rfl

/- ## Claim C3 -/

/-- Claim C3 counterexample: `normalize` is not a fixpoint on
`"@@ -1 +1 @@\n x\n\n"` — the first pass counts the trailing empty line as
context (counts `2,2`), but rejoining the lines absorbs it into the final
newline, so the second pass recounts `1,1` and rewrites the header again. -/
theorem C3_counterexample :
    normalize_patch (sl "@@ -1 +1 @@\n x\n\n") = sl "@@ -1,2 +1,2 @@\n x\n" ∧
      normalize_patch (normalize_patch (sl "@@ -1 +1 @@\n x\n\n"))
        = sl "@@ -1,1 +1,1 @@\n x\n" ∧
      normalize_patch (normalize_patch (sl "@@ -1 +1 @@\n x\n\n"))
        ≠ normalize_patch (sl "@@ -1 +1 @@\n x\n\n") := by
  refine ⟨?_, ?_, ?_⟩ <;> decide

/-- Claim C3 as amended: `normalize(normalize(p)) = normalize(p)` holds for
every patch text whose CR/LF-normalized form does not end with an empty
last line (equivalently: the split line list does not end with `""`); in
general the fixpoint can fail, because a counted trailing empty body line
is absorbed by the newline-rejoin, shifting the recount of the second pass
(see the counterexample). -/
theorem C3_fixpoint (p : List Char)
    (hlast : (splitlines (sanitize p)).getLast? ≠ some []) :
    normalize_patch (normalize_patch p) = normalize_patch p := by
  by_cases hch : (processLines (splitlines (sanitize p))).2 = true
  · -- a header was rewritten: the result is the rejoined processed lines
    have hLne : splitlines (sanitize p) ≠ [] := by
      intro he
      rw [he] at hch
      simp [processLines] at hch
    have hfr := processLines_frame (splitlines (sanitize p))
    have hnlL := splitlines_no_newline (sanitize p)
    have hnl2 : ∀ l ∈ (processLines (splitlines (sanitize p))).1, '\n' ∉ l := by
      intro l hl
      obtain ⟨a, ha, haR⟩ := Forall₂_mem_right hfr l hl
      exact FrameS_char haR '\n' (by decide) (by decide) (hnlL a ha)
    have hcr2 : ∀ l ∈ (processLines (splitlines (sanitize p))).1, '\r' ∉ l := by
      intro l hl
      obtain ⟨a, ha, haR⟩ := Forall₂_mem_right hfr l hl
      refine FrameS_char haR '\r' (by decide) (by decide) ?_
      intro hcr
      exact sanitize_no_cr p (splitlines_subset (sanitize p) a ha '\r' hcr)
    have hne2 : (processLines (splitlines (sanitize p))).1 ≠ [] := by
      intro he
      exact hLne (List.length_eq_zero.mp (by rw [hfr.length_eq, he]; rfl))
    have hlast2 : (processLines (splitlines (sanitize p))).1.getLast? ≠ some [] := by
      intro hc
      obtain ⟨a, ha⟩ := Option.ne_none_iff_exists'.mp
        (Option.isSome_iff_ne_none.mp (List.getLast?_isSome.mpr hLne))
      obtain ⟨b, hb, hbR⟩ := Forall₂_getLast hfr a ha
      rw [hb] at hc
      injection hc with hc
      have hane : a ≠ [] := by
        intro he
        exact hlast (he ▸ ha)
      exact FrameS_ne_nil hbR hane hc
    have hjoin_last : (joinLines (processLines (splitlines (sanitize p))).1).getLast?
        ≠ some '\n' := joinLines_getLast_ne_nl _ hne2 hnl2 hlast2
    have hout : normalize_patch p
        = joinLines (processLines (splitlines (sanitize p))).1 ++ ['\n'] := by
      rw [normalize_patch_def, if_pos hch, ensureNL_eq_append hjoin_last]
    have hnocr : '\r' ∉ joinLines (processLines (splitlines (sanitize p))).1 ++ ['\n'] := by
      intro hm
      rcases List.mem_append.mp hm with hm | hm
      · exact joinLines_mem '\r' (by decide) _ hcr2 hm
      · simp at hm
    rw [hout, normalize_patch_def,
      sanitize_eq_of_no_cr _ hnocr,
      splitlines_joinLines _ hne2 hnl2 hlast2,
      processLines_fix]
    dsimp only
    rw [if_neg (by simp), ensureNL_eq_self (List.getLast?_concat _)]
  · -- nothing was rewritten: the result is the sanitized text
    rw [Bool.not_eq_true] at hch
    by_cases hs0 : sanitize p = []
    · have h1 : normalize_patch p = ['\n'] := by
        rw [normalize_patch_def, hs0]
        rfl
      rw [h1]
      decide
    · have hout : normalize_patch p = ensureNL (sanitize p) := by
        rw [normalize_patch_def, hch]
        simp
      by_cases hend : (sanitize p).getLast? = some '\n'
      · have hsq : ensureNL (sanitize p) = sanitize p := ensureNL_eq_self hend
        rw [hout, hsq, normalize_patch_def,
          sanitize_eq_of_no_cr _ (sanitize_no_cr p), hch]
        simp [ensureNL_eq_self hend]
      · have hsq : ensureNL (sanitize p) = sanitize p ++ ['\n'] :=
          ensureNL_eq_append hend
        have hnocr : '\r' ∉ sanitize p ++ ['\n'] := by
          intro hm
          rcases List.mem_append.mp hm with hm | hm
          · exact sanitize_no_cr p hm
          · simp at hm
        rw [hout, hsq, normalize_patch_def,
          sanitize_eq_of_no_cr _ hnocr,
          splitlines_concat_nl _ hs0 hend, hch]
        simp [ensureNL_eq_self (List.getLast?_concat _)]

theorem C3_fixpoint_witness :
    (splitlines (sanitize (sl "@@ -1 +1 @@\n x\n"))).getLast? ≠ some [] ∧
      normalize_patch (normalize_patch (sl "@@ -1 +1 @@\n x\n"))
        = normalize_patch (sl "@@ -1 +1 @@\n x\n") :=
  ⟨by decide, C3_fixpoint (sl "@@ -1 +1 @@\n x\n") (by decide)⟩

/- ## Claim C8 -/

theorem tryOpen_none_of_head {c : Char} (rest : List Char) (hc : c ≠ '`') :
    tryOpen (c :: rest) = none := by
  have h1 : ∀ p, startsWith ('`' :: p) (c :: rest) = false := by
    intro p
    simp only [startsWith, Bool.and_eq_false_iff, decide_eq_false_iff_not]
    exact Or.inl (fun he => hc he.symm)
  unfold tryOpen
  rw [show sl "```patch\n" = '`' :: sl "``patch\n" from rfl, h1,
    show sl "```diff\n" = '`' :: sl "``diff\n" from rfl, h1,
    show sl "```\n" = '`' :: sl "``\n" from rfl, h1]
  rfl

theorem patchBlockGo_nil (s : List Char) (hs : '`' ∉ s) :
    ∀ fuel, s.length ≤ fuel → patchBlockGo fuel s = [] := by
  induction s with
  | nil => intro fuel _; cases fuel <;> rfl
  | cons c rest ih =>
    intro fuel hlen
    cases fuel with
    | zero => simp at hlen
    | succ fuel =>
      simp only [patchBlockGo]
      rw [tryOpen_none_of_head rest (fun he => hs (he ▸ List.mem_cons_self c rest))]
      exact ih (fun hm => hs (List.mem_cons_of_mem c hm)) fuel (by
        simp only [List.length_cons] at hlen
        omega)

theorem patchBlockGo_skip (pre s : List Char) (hpre : '`' ∉ pre) :
    ∀ fuel, (pre ++ s).length ≤ fuel →
      patchBlockGo fuel (pre ++ s) = patchBlockGo s.length s := by
  induction pre with
  | nil =>
    intro fuel hlen
    exact patchBlockGo_fuel fuel s.length s (by simpa using hlen) le_rfl
  | cons c pre' ih =>
    intro fuel hlen
    cases fuel with
    | zero => simp at hlen
    | succ fuel =>
      simp only [List.cons_append, patchBlockGo, List.append_eq]
      rw [tryOpen_none_of_head (pre' ++ s)
        (fun he => hpre (he ▸ List.mem_cons_self c pre'))]
      exact ih (fun hm => hpre (List.mem_cons_of_mem c hm)) fuel (by
        simp only [List.cons_append, List.length_cons] at hlen
        omega)

theorem findCloser_prefix (B post : List Char) (hB : '`' ∉ B) :
    findCloser (B ++ '`' :: '`' :: '`' :: post) = some (B, post) := by
  induction B with
  | nil =>
    simp only [List.nil_append, findCloser]
    rw [if_pos (by rw [startsWith_iff_append]; exact ⟨post, rfl⟩)]
    rfl
  | cons c B' ih =>
    simp only [List.cons_append, findCloser, List.append_eq]
    rw [if_neg, ih (fun hm => hB (List.mem_cons_of_mem c hm))]
    intro hsw
    rw [startsWith_iff_append] at hsw
    obtain ⟨t, ht⟩ := hsw
    have : c = '`' := by
      have := congrArg (fun l => l.head?) ht
      simpa [tick3] using this
    exact hB (this ▸ List.mem_cons_self c B')

theorem patchBlockFind_fence (pre B post : List Char)
    (hpre : '`' ∉ pre) (hB : '`' ∉ B) (hpost : '`' ∉ post) :
    patchBlockFind (pre ++ (sl "```diff\n" ++ (B ++ ('`' :: '`' :: '`' :: post))))
      = [B] := by
  unfold patchBlockFind
  rw [patchBlockGo_skip pre _ hpre _ le_rfl]
  have e : sl "```diff\n" ++ (B ++ ('`' :: '`' :: '`' :: post))
      = '`' :: ('`' :: '`' :: 'd' :: 'i' :: 'f' :: 'f' :: '\n' ::
          (B ++ ('`' :: '`' :: '`' :: post))) := rfl
  rw [e]
  have ht : tryOpen ('`' :: '`' :: '`' :: 'd' :: 'i' :: 'f' :: 'f' :: '\n' ::
      (B ++ ('`' :: '`' :: '`' :: post))) = some (B ++ ('`' :: '`' :: '`' :: post)) := rfl
  simp only [List.length_cons, patchBlockGo, ht, findCloser_prefix B post hB]
  rw [patchBlockGo_nil post hpost _ (by
    simp only [List.length_append, List.length_cons]
    omega)]

theorem dropWhile_eq_self_of_head {p : Char → Bool} {l : List Char}
    (h : ∀ c, l.head? = some c → p c = false) : l.dropWhile p = l := by
  cases l with
  | nil => rfl
  | cons c rest => rw [List.dropWhile_cons, if_neg (by simp [h c rfl])]

theorem lstrip_eq_self {l : List Char}
    (h : ∀ c, l.head? = some c → pySpace c = false) : lstrip l = l :=
  dropWhile_eq_self_of_head h

theorem rstrip_eq_self {l : List Char}
    (h : ∀ c, l.getLast? = some c → pySpace c = false) : rstrip l = l := by
  unfold rstrip
  rw [dropWhile_eq_self_of_head, List.reverse_reverse]
  intro c hc
  exact h c (by rwa [List.head?_reverse] at hc)

theorem rstrip_concat {l : List Char} {c : Char} (hc : pySpace c = true) :
    rstrip (l ++ [c]) = rstrip l := by
  unfold rstrip
  rw [List.reverse_append]
  simp [List.dropWhile_cons, hc]

theorem pstrip_eq_self {l : List Char}
    (hh : ∀ c, l.head? = some c → pySpace c = false)
    (hl : ∀ c, l.getLast? = some c → pySpace c = false) : pstrip l = l := by
  unfold pstrip
  rw [lstrip_eq_self hh, rstrip_eq_self hl]

theorem head?_append_left {l r : List Char} (h : l ≠ []) :
    (l ++ r).head? = l.head? := by
  cases l with
  | nil => exact absurd rfl h
  | cons c l' => rfl

theorem pstrip_concat_nl {l : List Char} (hne : l ≠ [])
    (hh : ∀ c, l.head? = some c → pySpace c = false)
    (hl : ∀ c, l.getLast? = some c → pySpace c = false) :
    pstrip (l ++ ['\n']) = l := by
  unfold pstrip
  rw [lstrip_eq_self (by
    intro c hc
    rw [head?_append_left hne] at hc
    exact hh c hc)]
  rw [rstrip_concat (by decide), rstrip_eq_self hl]

theorem joinLines_cons_head {s : List Char} (rest : List (List Char)) (hne : s ≠ []) :
    (joinLines (s :: rest)).head? = s.head? := by
  rcases rest with _ | ⟨s2, rest2⟩
  · rfl
  · exact head?_append_left hne

theorem joinLines_getLast {ls : List (List Char)} {l : List Char}
    (hl : ls.getLast? = some l) (hlne : l ≠ []) :
    (joinLines ls).getLast? = l.getLast? := by
  induction ls with
  | nil => cases hl
  | cons s rest ih =>
    rcases rest with _ | ⟨s2, rest2⟩
    · simp only [List.getLast?_singleton, Option.some.injEq] at hl
      subst hl
      rfl
    · rw [List.getLast?_cons_cons] at hl
      have hjne : joinLines (s2 :: rest2) ≠ [] := by
        apply joinLines_ne_nil _ (by simp)
        intro hc
        rw [hl] at hc
        injection hc with hc
        exact hlne hc
      have : joinLines (s :: s2 :: rest2) = s ++ '\n' :: joinLines (s2 :: rest2) := rfl
      rw [this, List.getLast?_append_of_ne_nil s (by simp)]
      rcases hj : joinLines (s2 :: rest2) with _ | ⟨a, y⟩
      · exact absurd hj hjne
      · rw [List.getLast?_cons_cons, ← hj, ih hl]

theorem startsWith_append_left {p x y : List Char} (h : startsWith p x = true) :
    startsWith p (x ++ y) = true := by
  rw [startsWith_iff_append] at h ⊢
  obtain ⟨t, rfl⟩ := h
  exact ⟨t ++ y, by simp⟩

theorem startsWith_self_append (p t : List Char) : startsWith p (p ++ t) = true := by
  rw [startsWith_iff_append]
  exact ⟨t, rfl⟩

theorem occurs_of_suffix_startsWith {pat t s : List Char}
    (hsuf : t <:+ s) (h : startsWith pat t = true) : occurs pat s = true := by
  induction s with
  | nil =>
    have : t = [] := List.suffix_nil.mp hsuf
    subst this
    simpa [occurs] using h
  | cons c rest ih =>
    rcases List.suffix_cons_iff.mp hsuf with rfl | hsuf2
    · simp [occurs, h]
    · simp [occurs, ih hsuf2]

theorem occurs_cons_false {pat : List Char} {c : Char} {rest : List Char}
    (h : occurs pat (c :: rest) = false) : occurs pat rest = false := by
  simp only [occurs, Bool.or_eq_false_iff] at h
  exact h.2

theorem startsWith_cross_newline (pat : List Char) (hnl : '\n' ∉ pat) :
    ∀ {t r : List Char}, startsWith pat (t ++ '\n' :: r) = true →
      startsWith pat t = true := by
  induction pat with
  | nil => intro t r _; rfl
  | cons p ps ih =>
    intro t r h
    cases t with
    | nil =>
      simp only [List.nil_append, startsWith, Bool.and_eq_true, decide_eq_true_eq] at h
      exact absurd (h.1 ▸ List.mem_cons_self p ps) hnl
    | cons c t' =>
      simp only [List.cons_append, startsWith, Bool.and_eq_true] at h ⊢
      exact ⟨h.1, ih (fun hm => hnl (List.mem_cons_of_mem p hm)) h.2⟩

theorem fileChunk_to_next (t J : List Char) (hocc : occurs dgMark t = false)
    (hJ : startsWith dgMark J = true) :
    fileChunk (t ++ '\n' :: J) = (t ++ ['\n'], J) := by
  have hJne : J ≠ [] := by
    intro he
    subst he
    simp [startsWith, dgMark] at hJ
  induction t with
  | nil =>
    simp only [List.nil_append, fileChunk]
    rw [if_neg (by
      simp only [Bool.or_eq_true, not_or]
      constructor
      · simp [startsWith, dgMark]
      · simp [hJne])]
    have hstop : fileChunk J = ([], J) := by
      cases J with
      | nil => exact absurd rfl hJne
      | cons c r =>
        simp only [fileChunk]
        rw [if_pos (by simp [hJ])]
    rw [hstop]
  | cons c t' ih =>
    simp only [List.cons_append, fileChunk]
    rw [if_neg (by
      simp only [Bool.or_eq_true, not_or]
      constructor
      · intro hsw
        have hsw2 : startsWith dgMark (c :: t') = true :=
          startsWith_cross_newline dgMark (by decide) hsw
        exact absurd (occurs_of_suffix_startsWith (List.suffix_refl _) hsw2)
          (by simp [hocc])
      · simp)]
    rw [List.append_eq, ih (occurs_cons_false hocc)]

theorem fileChunk_run (t : List Char) (hocc : occurs dgMark t = false)
    (hlast : t.getLast? ≠ some '\n') : fileChunk t = (t, []) := by
  induction t with
  | nil => rfl
  | cons c t' ih =>
    simp only [fileChunk]
    rw [if_neg (by
      simp only [Bool.or_eq_true, not_or]
      constructor
      · intro hsw
        exact absurd (occurs_of_suffix_startsWith (List.suffix_refl _) hsw)
          (by simp [hocc])
      · intro he
        rw [of_decide_eq_true he] at hlast
        exact hlast rfl)]
    have hlast' : t'.getLast? ≠ some '\n' := by
      rcases t' with _ | ⟨d, t2⟩
      · simp
      · rwa [List.getLast?_cons_cons] at hlast
    rw [ih (occurs_cons_false hocc) hlast']

/-- The chunks `FILE_SPLIT` produces on a newline-join of file sections:
every section but the last carries its separating newline. -/
def withSeps : List (List Char) → List (List Char)
  | [] => []
  | [s] => [s]
  | s :: rest => (s ++ ['\n']) :: withSeps rest

theorem fileSplitGo_empty (fuel : Nat) : fileSplitGo fuel [] = [] := by
  cases fuel <;> rfl

theorem fileSplitGo_sections (ss : List (List Char)) :
    ∀ fuel : Nat,
      (∀ s ∈ ss, ∃ t, s = dgMark ++ t ∧ occurs dgMark t = false) →
      (∀ s ∈ ss, s.getLast? ≠ some '\n') →
      (joinLines ss).length ≤ fuel →
      fileSplitGo fuel (joinLines ss) = withSeps ss := by
  induction ss with
  | nil => intro fuel _ _ _; exact fileSplitGo_empty fuel
  | cons s rest ih =>
    intro fuel hsec hlast hlen
    obtain ⟨t, hst, hocc⟩ := hsec s (List.mem_cons_self _ _)
    rcases rest with _ | ⟨s2, rest2⟩
    · -- single section
      have hj : joinLines [s] = dgMark ++ t := by rw [hst]; rfl
      rw [hj] at hlen ⊢
      have hlen11 : 11 + t.length ≤ fuel := by
        simp only [List.length_append, dgMark, List.length_cons, List.length_nil] at hlen
        omega
      cases fuel with
      | zero => omega
      | succ fuel =>
        have e : dgMark ++ t
            = 'd' :: ('i' :: 'f' :: 'f' :: ' ' :: '-' :: '-' :: 'g' :: 'i' :: 't' :: ' ' :: t) := rfl
        have hsw : startsWith dgMark (dgMark ++ t) = true := startsWith_self_append dgMark t
        rw [e] at hsw
        rw [e]
        simp only [fileSplitGo]
        rw [if_pos hsw]
        have hdrop : ('d' :: ('i' :: 'f' :: 'f' :: ' ' :: '-' :: '-' :: 'g' :: 'i' :: 't' :: ' ' :: t)).drop 11 = t := rfl
        rw [hdrop]
        have hlast' : t.getLast? ≠ some '\n' := by
          rcases t with _ | ⟨d, t2⟩
          · simp
          · have := hlast s (List.mem_cons_self _ _)
            rw [hst] at this
            rwa [List.getLast?_append_of_ne_nil dgMark (by simp)] at this
        rw [fileChunk_run t hocc hlast', fileSplitGo_empty]
        show [dgMark ++ t] = withSeps [s]
        rw [← hst]
        rfl
    · -- at least two sections
      have hj : joinLines (s :: s2 :: rest2)
          = dgMark ++ (t ++ '\n' :: joinLines (s2 :: rest2)) := by
        rw [hst]
        show (dgMark ++ t) ++ '\n' :: joinLines (s2 :: rest2) = _
        rw [List.append_assoc]
      rw [hj] at hlen ⊢
      cases fuel with
      | zero =>
        simp only [List.length_append, dgMark, List.length_cons] at hlen
        omega
      | succ fuel =>
        have e : dgMark ++ (t ++ '\n' :: joinLines (s2 :: rest2))
            = 'd' :: ('i' :: 'f' :: 'f' :: ' ' :: '-' :: '-' :: 'g' :: 'i' :: 't' :: ' ' ::
                (t ++ '\n' :: joinLines (s2 :: rest2))) := rfl
        have hsw : startsWith dgMark (dgMark ++ (t ++ '\n' :: joinLines (s2 :: rest2))) = true :=
          startsWith_self_append dgMark _
        rw [e] at hsw
        rw [e]
        simp only [fileSplitGo]
        rw [if_pos hsw]
        have hdrop : ('d' :: ('i' :: 'f' :: 'f' :: ' ' :: '-' :: '-' :: 'g' :: 'i' :: 't' :: ' ' ::
            (t ++ '\n' :: joinLines (s2 :: rest2)))).drop 11 = t ++ '\n' :: joinLines (s2 :: rest2) := rfl
        rw [hdrop]
        obtain ⟨t2, hst2, -⟩ := hsec s2 (List.mem_cons_of_mem s (List.mem_cons_self _ _))
        have hJsw : startsWith dgMark (joinLines (s2 :: rest2)) = true := by
          have hs2 : startsWith dgMark s2 = true := by
            rw [hst2]; exact startsWith_self_append dgMark t2
          rcases rest2 with _ | ⟨s3, rest3⟩
          · exact hs2
          · exact startsWith_append_left hs2
        rw [fileChunk_to_next t (joinLines (s2 :: rest2)) hocc hJsw]
        have hrec := ih fuel
          (fun x hx => hsec x (List.mem_cons_of_mem s hx))
          (fun x hx => hlast x (List.mem_cons_of_mem s hx))
          (by
            simp only [List.length_append, List.length_cons] at hlen
            omega)
        rw [hrec]
        show (dgMark ++ (t ++ ['\n'])) :: withSeps (s2 :: rest2) = _
        rw [← List.append_assoc, ← hst]
        rfl

theorem map_pstrip_withSeps (ss : List (List Char))
    (hsec : ∀ s ∈ ss, ∃ t, s = dgMark ++ t)
    (hlast : ∀ s ∈ ss, ∀ c, s.getLast? = some c → pySpace c = false) :
    (withSeps ss).map pstrip = ss := by
  induction ss with
  | nil => rfl
  | cons s rest ih =>
    obtain ⟨t, hst⟩ := hsec s (List.mem_cons_self _ _)
    have hhead : ∀ c, s.head? = some c → pySpace c = false := by
      intro c hc
      rw [hst] at hc
      injection hc with hc
      rw [← hc]
      decide
    have hne : s ≠ [] := by rw [hst]; simp [dgMark]
    rcases rest with _ | ⟨s2, rest2⟩
    · show [pstrip s] = [s]
      rw [pstrip_eq_self hhead (hlast s (List.mem_cons_self _ _))]
    · show pstrip (s ++ ['\n']) :: (withSeps (s2 :: rest2)).map pstrip = s :: s2 :: rest2
      rw [pstrip_concat_nl hne hhead (hlast s (List.mem_cons_self _ _)),
        ih (fun x hx => hsec x (List.mem_cons_of_mem s hx))
          (fun x hx => hlast x (List.mem_cons_of_mem s hx))]

/-- Claim C8: an LLM response consisting of one fenced `diff` block whose
content is the newline-join of `n` file sections — each starting with its
own `diff --git ` header line, containing no other occurrence of
`"diff --git "`, free of backquotes, and not ending in whitespace — with
arbitrary backquote-free text around the fence, extracts to exactly those
`n` sections, one `PatchText` per file, never one `PatchText` for the
whole fence. -/
theorem C8_per_file_split (pre post : List Char) (ss : List (List Char))
    (hne : ss ≠ [])
    (hsec : ∀ s ∈ ss, ∃ t, s = dgMark ++ t ∧ occurs dgMark t = false)
    (htick : ∀ s ∈ ss, '`' ∉ s)
    (hlastc : ∀ s ∈ ss, ∀ c, s.getLast? = some c → pySpace c = false)
    (hpre : '`' ∉ pre) (hpost : '`' ∉ post) :
    extract_patches
      (pre ++ (sl "```diff\n" ++ ((joinLines ss ++ ['\n']) ++ ('`' :: '`' :: '`' :: post))))
      = ss := by
  have hBtick : '`' ∉ joinLines ss ++ ['\n'] := by
    intro hm
    rcases List.mem_append.mp hm with hm | hm
    · exact joinLines_mem '`' (by decide) ss htick hm
    · simp at hm
  have hfence := patchBlockFind_fence pre (joinLines ss ++ ['\n']) post hpre hBtick hpost
  obtain ⟨sl0, hsl0⟩ := Option.ne_none_iff_exists'.mp
    (Option.isSome_iff_ne_none.mp (List.getLast?_isSome.mpr hne))
  have hslmem : sl0 ∈ ss := by
    obtain ⟨hx, he⟩ := List.mem_getLast?_eq_getLast (x := sl0) hsl0
    exact he ▸ List.getLast_mem hx
  obtain ⟨tl, hstl, -⟩ := hsec sl0 hslmem
  have hslne : sl0 ≠ [] := by rw [hstl]; simp [dgMark]
  have hlastne : ss.getLast? ≠ some [] := by
    rw [hsl0]
    intro hc
    injection hc with hc
    exact hslne hc
  have hJne : joinLines ss ≠ [] := joinLines_ne_nil ss hne hlastne
  have hJlast : (joinLines ss).getLast? = sl0.getLast? := joinLines_getLast hsl0 hslne
  have hJlastns : ∀ c, (joinLines ss).getLast? = some c → pySpace c = false := by
    intro c hc
    rw [hJlast] at hc
    exact hlastc sl0 hslmem c hc
  obtain ⟨s0, rest0, hss0⟩ : ∃ a b, ss = a :: b := by
    rcases ss with _ | ⟨a, b⟩
    · exact absurd rfl hne
    · exact ⟨a, b, rfl⟩
  obtain ⟨t0, hst0, -⟩ := hsec s0 (hss0 ▸ List.mem_cons_self s0 rest0)
  have hs0ne : s0 ≠ [] := by rw [hst0]; simp [dgMark]
  have hJhead : (joinLines ss).head? = some 'd' := by
    rw [hss0, joinLines_cons_head rest0 hs0ne, hst0]
    rfl
  have hJheadns : ∀ c, (joinLines ss).head? = some c → pySpace c = false := by
    intro c hc
    rw [hJhead] at hc
    injection hc with hc
    rw [← hc]
    decide
  have hstrip : pstrip (joinLines ss ++ ['\n']) = joinLines ss :=
    pstrip_concat_nl hJne hJheadns hJlastns
  have hsolo : startsWith dgSolo (joinLines ss) = true := by
    have hs0sw : startsWith dgSolo s0 = true := by
      rw [hst0]
      have e2 : dgMark ++ t0 = dgSolo ++ (' ' :: t0) := rfl
      rw [e2]
      exact startsWith_self_append dgSolo _
    rw [hss0]
    rcases rest0 with _ | ⟨s2, r2⟩
    · exact hs0sw
    · exact startsWith_append_left hs0sw
  have hsections := fileSplitGo_sections ss (joinLines ss).length hsec
    (fun x hx hc => by
      have := hlastc x hx '\n' hc
      simp [pySpace] at this)
    le_rfl
  have hmap := map_pstrip_withSeps ss
    (fun x hx => ⟨((hsec x hx).choose), ((hsec x hx).choose_spec).1⟩) hlastc
  unfold extract_patches
  rw [hfence]
  simp only [List.foldl_cons, List.foldl_nil, hstrip, hsolo, if_true, List.nil_append]
  unfold fileSplitFind
  rw [hsections, hmap]
  rw [if_pos ⟨by simp, hne⟩]

theorem C8_per_file_split_witness :
    extract_patches (sl "Fix:\n" ++ (sl "```diff\n" ++
      ((joinLines [sl "diff --git a/x b/x\n-a\n+b", sl "diff --git a/y b/y\n-c\n+d"]
          ++ ['\n']) ++ ('`' :: '`' :: '`' :: sl "\nDone"))))
      = [sl "diff --git a/x b/x\n-a\n+b", sl "diff --git a/y b/y\n-c\n+d"] := by
  refine C8_per_file_split (sl "Fix:\n") (sl "\nDone")
    [sl "diff --git a/x b/x\n-a\n+b", sl "diff --git a/y b/y\n-c\n+d"]
    (by decide) ?_ (by decide) ?_ (by decide) (by decide)
  · intro s hs
    rcases List.mem_cons.mp hs with rfl | hs
    · exact ⟨sl "a/x b/x\n-a\n+b", by decide, by decide⟩
    rcases List.mem_cons.mp hs with rfl | hs
    · exact ⟨sl "a/y b/y\n-c\n+d", by decide, by decide⟩
    · cases hs
  · intro s hs c hc
    rcases List.mem_cons.mp hs with rfl | hs
    · rw [show (sl "diff --git a/x b/x\n-a\n+b").getLast? = some 'b' from by decide] at hc
      injection hc with hc
      rw [← hc]
      decide
    rcases List.mem_cons.mp hs with rfl | hs
    · rw [show (sl "diff --git a/y b/y\n-c\n+d").getLast? = some 'd' from by decide] at hc
      injection hc with hc
      rw [← hc]
      decide
    · cases hs
